import Mathlib

/-!
Verification of a draft zarr-v3 store implementation: key validation,
store get/set/delete/list operations, hierarchy bootstrap, and the
v2-compatibility adapter, together with the JSON encoding layer they
rely on.  Strings are modelled as lists of characters; fallible
operations return `Except`.
-/

namespace Zarr

/-- Python strings and byte strings are modelled as lists of characters. -/
abbrev Str := List Char

/-- The kinds of exceptions the code can raise: `KeyError`, `ValueError`
(invalid namespace), `TypeError`, `AssertionError` (failed `assert`),
JSON decode errors, and `AttributeError` (calling `.keys()`/`.decode()`
on an object that lacks it). -/
inductive ZarrError where
  | keyError : ZarrError
  | valueError : ZarrError
  | typeError : ZarrError
  | assertionError : ZarrError
  | jsonError : ZarrError
  | attributeError : ZarrError
deriving DecidableEq

/-- Left brace character (written via its code). -/
def lbrace : Char := '\x7b'

/-- Right brace character (written via its code). -/
def rbrace : Char := '\x7d'

/-- JSON whitespace. -/
def isWsChar (c : Char) : Bool := c = ' ' || c = '\n' || c = '\t' || c = '\r'

/-- Skip leading whitespace. -/
def skipWs : Str → Str
  | [] => []
  | c :: cs => if isWsChar c then skipWs cs else c :: cs

def isDigitChar (c : Char) : Bool := 48 ≤ c.toNat && c.toNat ≤ 57

def digitVal (c : Char) : Nat := c.toNat - 48

def digitChar (d : Nat) : Char := Char.ofNat (48 + d)

/-- JSON values as produced by `json.loads`.  Numbers are modelled as
integers (all numbers appearing in this code base are integers). -/
inductive JValue where
  | jnull : JValue
  | jbool : Bool → JValue
  | jnum : Int → JValue
  | jstr : Str → JValue
  | jarr : List JValue → JValue
  | jobj : List (Str × JValue) → JValue

/-- Python dict assignment `d[k] = v`: replace the value at an existing
key in place, else append the binding at the end. -/
def setKey : List (Str × JValue) → Str → JValue → List (Str × JValue)
  | [], k, v => [(k, v)]
  | (k0, v0) :: rest, k, v =>
    if k0 = k then (k0, v) :: rest else (k0, v0) :: setKey rest k v

/-- Python dict lookup `d[k]` (as an option; `none` means `KeyError`). -/
def getKey : List (Str × JValue) → Str → Option JValue
  | [], _ => none
  | (k0, v0) :: rest, k => if k0 = k then some v0 else getKey rest k

/-- Python `del d[k]` once the key is known to be present: drop the
(unique) binding for `k`. -/
def removeKey : List (Str × JValue) → Str → List (Str × JValue)
  | [], _ => []
  | (k0, v0) :: rest, k => if k0 = k then rest else (k0, v0) :: removeKey rest k

/-- JSON string escape decoding. -/
def unescapeChar (c : Char) : Option Char :=
  if c = '"' then some '"'
  else if c = '\\' then some '\\'
  else if c = '/' then some '/'
  else if c = 'n' then some '\n'
  else if c = 't' then some '\t'
  else if c = 'r' then some '\r'
  else if c = 'b' then some (Char.ofNat 8)
  else if c = 'f' then some (Char.ofNat 12)
  else none

/-- Parse the body of a JSON string (after the opening quote), up to and
including the closing quote. -/
def parseStrBody : Str → Option (Str × Str)
  | [] => none
  | c :: cs =>
    if c = '"' then some ([], cs)
    else if c = '\\' then
      match cs with
      | [] => none
      | e :: cs2 =>
        match unescapeChar e with
        | none => none
        | some c2 =>
          match parseStrBody cs2 with
          | none => none
          | some (s, r) => some (c2 :: s, r)
    else
      match parseStrBody cs with
      | none => none
      | some (s, r) => some (c :: s, r)

/-- Consume a maximal run of digits, accumulating their value. -/
def parseDigitsLoop : Str → Nat → Nat × Str
  | [], acc => (acc, [])
  | c :: cs, acc =>
    if isDigitChar c then parseDigitsLoop cs (acc * 10 + digitVal c) else (acc, c :: cs)

/-- Parse a JSON integer (optional minus sign, then digits). -/
def parseNum : Str → Option (Int × Str)
  | [] => none
  | c :: cs =>
    if c = '-' then
      match cs with
      | [] => none
      | d :: ds =>
        if isDigitChar d then
          let p := parseDigitsLoop ds (digitVal d)
          some (-(p.1 : Int), p.2)
        else none
    else if isDigitChar c then
      let p := parseDigitsLoop cs (digitVal c)
      some ((p.1 : Int), p.2)
    else none

/-- Match a literal sequence of characters. -/
def stripLit : Str → Str → Option Str
  | [], s => some s
  | _ :: _, [] => none
  | c :: cs, d :: ds => if c = d then stripLit cs ds else none

mutual

/-- Fuel-based recursive-descent JSON value parser. -/
def parseVal : Nat → Str → Option (JValue × Str)
  | 0, _ => none
  | f + 1, s =>
    match skipWs s with
    | [] => none
    | c :: cs =>
      if c = '"' then
        match parseStrBody cs with
        | none => none
        | some (str, r) => some (.jstr str, r)
      else if c = lbrace then
        match skipWs cs with
        | d :: ds =>
          if d = rbrace then some (.jobj [], ds)
          else parseMembers f (d :: ds) []
        | [] => none
      else if c = '[' then
        match skipWs cs with
        | d :: ds =>
          if d = ']' then some (.jarr [], ds)
          else parseElems f (d :: ds) []
        | [] => none
      else if c = 't' then
        match stripLit (("rue").data) cs with
        | some r => some (.jbool true, r)
        | none => none
      else if c = 'f' then
        match stripLit (("alse").data) cs with
        | some r => some (.jbool false, r)
        | none => none
      else if c = 'n' then
        match stripLit (("ull").data) cs with
        | some r => some (.jnull, r)
        | none => none
      else if c = '-' || isDigitChar c then
        match parseNum (c :: cs) with
        | some (n, r) => some (.jnum n, r)
        | none => none
      else none

/-- Parse the members of a JSON object (input positioned at the first
character of a key string); duplicate keys collapse as in a Python dict. -/
def parseMembers : Nat → Str → List (Str × JValue) → Option (JValue × Str)
  | 0, _, _ => none
  | f + 1, s, acc =>
    match s with
    | [] => none
    | c :: cs =>
      if c = '"' then
        match parseStrBody cs with
        | none => none
        | some (k, r1) =>
          match skipWs r1 with
          | [] => none
          | d :: r2 =>
            if d = ':' then
              match parseVal f r2 with
              | none => none
              | some (v, r3) =>
                match skipWs r3 with
                | [] => none
                | e :: r4 =>
                  if e = ',' then parseMembers f (skipWs r4) (setKey acc k v)
                  else if e = rbrace then some (.jobj (setKey acc k v), r4)
                  else none
            else none
      else none

/-- Parse the elements of a JSON array (input positioned at the first
element). -/
def parseElems : Nat → Str → List JValue → Option (JValue × Str)
  | 0, _, _ => none
  | f + 1, s, acc =>
    match parseVal f s with
    | none => none
    | some (v, r1) =>
      match skipWs r1 with
      | [] => none
      | e :: r2 =>
        if e = ',' then parseElems f (skipWs r2) (acc ++ [v])
        else if e = ']' then some (.jarr (acc ++ [v]), r2)
        else none

end

/-- `json.loads`: parse a complete JSON document; trailing garbage is an
error, as in Python. -/
def jloads (s : Str) : Option JValue :=
  match parseVal (s.length + 1) s with
  | none => none
  | some (v, r) => if (skipWs r).isEmpty then some v else none

def hexDigitChar (d : Nat) : Char :=
  if d < 10 then Char.ofNat (48 + d) else Char.ofNat (87 + d)

def hex4 (n : Nat) : Str :=
  [hexDigitChar (n / 4096 % 16), hexDigitChar (n / 256 % 16),
   hexDigitChar (n / 16 % 16), hexDigitChar (n % 16)]

/-- JSON string escaping, as `json.dumps` does with `ensure_ascii`. -/
def escChar (c : Char) : Str :=
  if c = '"' then ('\\' :: '"' :: [])
  else if c = '\\' then ('\\' :: '\\' :: [])
  else if c = '\n' then ('\\' :: 'n' :: [])
  else if c = '\t' then ('\\' :: 't' :: [])
  else if c = '\r' then ('\\' :: 'r' :: [])
  else if c.toNat = 8 then ('\\' :: 'b' :: [])
  else if c.toNat = 12 then ('\\' :: 'f' :: [])
  else if 32 ≤ c.toNat && c.toNat ≤ 126 then [c]
  else '\\' :: 'u' :: hex4 c.toNat

/-- Escape a string body and append the closing quote. -/
def escStrBody : Str → Str
  | [] => ['"']
  | c :: cs => escChar c ++ escStrBody cs

/-- Decimal digits of a natural number (fuel-based). -/
def natDigitsF : Nat → Nat → Str
  | 0, _ => []
  | f + 1, n => if n < 10 then [digitChar n] else natDigitsF f (n / 10) ++ [digitChar (n % 10)]

def natDigits (n : Nat) : Str := natDigitsF (n + 1) n

def dumpInt (n : Int) : Str :=
  if n < 0 then '-' :: natDigits n.natAbs else natDigits n.natAbs

def padSp (n : Nat) : Str := List.replicate n ' '

/-- Whitespace emitted by `json.dumps` after an opening bracket and
before a closing bracket: nothing in compact mode, newline plus
indentation with `indent=i`. -/
def openSep (ind : Option Nat) (lvl : Nat) : Str :=
  match ind with
  | none => []
  | some i => '\n' :: padSp (i * lvl)

/-- Separator emitted between two items. -/
def itemSep (ind : Option Nat) (lvl : Nat) : Str :=
  match ind with
  | none => (',' :: ' ' :: [])
  | some i => ',' :: '\n' :: padSp (i * lvl)

def keySep : Str := (':' :: ' ' :: [])

mutual

/-- `json.dumps` with optional `indent`, at nesting level `lvl`. -/
def dumpVal (ind : Option Nat) (lvl : Nat) : JValue → Str
  | .jnull => ("null").data
  | .jbool b => if b then ("true").data else ("false").data
  | .jnum n => dumpInt n
  | .jstr s => '"' :: escStrBody s
  | .jarr [] => ('[' :: ']' :: [])
  | .jarr (x :: xs) =>
    '[' :: (openSep ind (lvl + 1) ++ dumpVal ind (lvl + 1) x ++
      dumpElems ind (lvl + 1) xs ++ openSep ind lvl ++ (']' :: []))
  | .jobj [] => (lbrace :: rbrace :: [])
  | .jobj (kv :: fs) =>
    lbrace :: (openSep ind (lvl + 1) ++ dumpField ind (lvl + 1) kv ++
      dumpFields ind (lvl + 1) fs ++ openSep ind lvl ++ (rbrace :: []))

/-- Serialize one object member. -/
def dumpField (ind : Option Nat) (lvl : Nat) : Str × JValue → Str
  | (k, v) => '"' :: (escStrBody k ++ keySep ++ dumpVal ind lvl v)

/-- Serialize the remaining array elements, each preceded by the item
separator. -/
def dumpElems (ind : Option Nat) (lvl : Nat) : List JValue → Str
  | [] => []
  | x :: xs => itemSep ind lvl ++ dumpVal ind lvl x ++ dumpElems ind lvl xs

/-- Serialize the remaining object members, each preceded by the item
separator. -/
def dumpFields (ind : Option Nat) (lvl : Nat) : List (Str × JValue) → Str
  | [] => []
  | kv :: fs => itemSep ind lvl ++ dumpField ind lvl kv ++ dumpFields ind lvl fs

end

/-- `json.dumps(x)` (compact, default separators). -/
def jdumps (x : JValue) : Str := dumpVal none 0 x

/-- `json.dumps(x, indent=4)`. -/
def jdumps4 (x : JValue) : Str := dumpVal (some 4) 0 x

/-! ## The store (`BaseV3Store` / `MemoryStoreV3`) -/

/-- The in-memory backend (`MemoryStoreV3._backend`): a Python dict from
keys to byte strings, modelled as an association list in insertion
order. -/
abbrev Store := List (Str × Str)

/-- A Python object passed as the `value` argument of `set`: either a
byte string or some non-bytes object. -/
inductive PyObj where
  | pybytes : Str → PyObj
  | pystr : Str → PyObj
  | pyint : Int → PyObj

def isBytes : PyObj → Bool
  | .pybytes _ => true
  | _ => false

/-- `value.decode()`: succeeds on bytes, raises `AttributeError` on
objects without a `decode` method. -/
def pyDecode : PyObj → Except ZarrError Str
  | .pybytes b => .ok b
  | _ => .error .attributeError

def bytesOf : PyObj → Str
  | .pybytes b => b
  | _ => []

/-- Python `str.isascii()` for one character. -/
def asciiChar (c : Char) : Bool := c.toNat ≤ 127

/-- Membership in `ascii_letters + digits + "/.-_"` (character codes:
lowercase 97-122, uppercase 65-90, digits 48-57, and `/` `.` `-` `_`). -/
def allowedChar (c : Char) : Bool :=
  (97 ≤ c.toNat && c.toNat ≤ 122) || (65 ≤ c.toNat && c.toNat ≤ 90) ||
    (48 ≤ c.toNat && c.toNat ≤ 57) ||
    c = '/' || c = '.' || c = '-' || c = '_'

/-- `BaseV3Store._valid_path`: non-ASCII input or input with characters
outside `[A-Za-z0-9/.-_]` yields `false`; an allowed-charset key that
does not start with `data/` or `meta/` and is not exactly `zarr.json`
raises `ValueError`; otherwise `true`. -/
def valid_path (key : Str) : Except ZarrError Bool :=
  if !key.all asciiChar then .ok false
  else if !key.all allowedChar then .ok false
  else if !(("data/").data.isPrefixOf key) && !(("meta/").data.isPrefixOf key) &&
      !(key = ("zarr.json").data) then
    .error .valueError
  else .ok true

/-- The two group-metadata schema-check lines shared by `async_get` and
`async_set`: `v = json.loads(...)` followed by
`assert set(v.keys()) == {'attributes'}`. -/
def group_check (b : Str) : Except ZarrError Unit :=
  match jloads b with
  | none => .error .jsonError
  | some v =>
    match v with
    | .jobj fields =>
      if !fields.isEmpty && fields.all (fun p => p.1 = ("attributes").data) then .ok ()
      else .error .assertionError
    | _ => .error .attributeError

/-- Raw dict lookup (`MemoryStoreV3._get` without the raise). -/
def store_lookup : Store → Str → Option Str
  | [], _ => none
  | (k0, v0) :: rest, k => if k0 = k then some v0 else store_lookup rest k

/-- Raw dict assignment (`MemoryStoreV3._set`). -/
def store_set_backend : Store → Str → Str → Store
  | [], k, v => [(k, v)]
  | (k0, v0) :: rest, k, v =>
    if k0 = k then (k0, v) :: rest else (k0, v0) :: store_set_backend rest k v

/-- `BaseV3Store.async_get` over the in-memory backend: assert
`_valid_path`, fetch (`KeyError` when absent), and for keys ending in
`/.group` run the group-metadata schema check. -/
def async_get (st : Store) (key : Str) : Except ZarrError Str :=
  match valid_path key with
  | .error e => .error e
  | .ok false => .error .assertionError
  | .ok true =>
    match store_lookup st key with
    | none => .error .keyError
    | some result =>
      if ("/.group").data.isSuffixOf key then
        match group_check result with
        | .error e => .error e
        | .ok _ => .ok result
      else .ok result

/-- `BaseV3Store.async_set` over the in-memory backend: for keys ending
in `/.group` the schema check runs first (on `value.decode()`), then
the byte-type check, then `_valid_path`, then the raw write. -/
def async_set (st : Store) (key : Str) (value : PyObj) : Except ZarrError Store :=
  match (if ("/.group").data.isSuffixOf key then
           match pyDecode value with
           | .error e => .error e
           | .ok s => group_check s
         else .ok () : Except ZarrError Unit) with
  | .error e => .error e
  | .ok _ =>
    if !isBytes value then .error .typeError
    else
      match valid_path key with
      | .error e => .error e
      | .ok false => .error .assertionError
      | .ok true => .ok (store_set_backend st key (bytesOf value))

/-- `MemoryStoreV3.async_delete`: `del self._backend[key]`. -/
def store_delete (st : Store) (key : Str) : Except ZarrError Store :=
  match store_lookup st key with
  | none => .error .keyError
  | some _ => .ok (removeEntry st key)
where
  removeEntry : Store → Str → Store
    | [], _ => []
    | (k0, v0) :: rest, k => if k0 = k then rest else (k0, v0) :: removeEntry rest k

/-- `MemoryStoreV3.async_list`: the dict keys in insertion order. -/
def async_list (st : Store) : List Str := st.map Prod.fst

/-- `BaseV3Store.async_list_prefix` (named `async_list_pre` here):
filter the listed keys by `startswith`. -/
def async_list_pre (st : Store) (pre : Str) : List Str :=
  (async_list st).filter (fun k => pre.isPrefixOf k)

/-- The segment of `s` before its first `/`. -/
def splitHead : Str → Str
  | [] => []
  | c :: cs => if c = '/' then [] else c :: splitHead cs

/-- Deduplication as performed by building a Python set from a list:
each distinct element kept once (here: its last occurrence). -/
def dedupLast : List Str → List Str
  | [] => []
  | x :: xs => if x ∈ xs then dedupLast xs else x :: dedupLast xs

/-- `MemoryStoreV3.async_list_dir`: list the keys under `prefix`, strip
`len(prefix)` characters, keep the segment before the first `/`,
deduplicate, and re-prepend the prefix. -/
def async_list_dir (st : Store) (pre : Str) : List Str :=
  let all_keys := async_list_pre st pre
  let trail := dedupLast (all_keys.map (fun k => splitHead (k.drop pre.length)))
  trail.map (fun k => pre ++ k)

/-! ## The protocol object (`ZarrProtocolV3`) -/

/-- `ZarrProtocolV3._g_meta_key`. -/
def g_meta_key (key : Str) : Str := ("meta/").data ++ key ++ (".group").data

/-- The `DEFAULT_GROUP` payload written by `async_create_group`,
transcribed byte for byte (note the trailing commas). -/
def DEFAULT_GROUP : Str :=
  ("\x7b\n        \"attributes\": \x7b\n            \"spam\": \"ham\",\n            \"eggs\": 42,\n        \x7d  \x7d\n        ").data

/-- `ZarrProtocolV3.async_create_group`. -/
def async_create_group (st : Store) (group_path : Str) : Except ZarrError Store :=
  async_set st (g_meta_key group_path) (.pybytes DEFAULT_GROUP)

/-- The `basic_info` dict constructed (and then not used) by
`init_hierarchy`. -/
def basic_info_obj : JValue :=
  .jobj
    [ (("zarr_format").data, .jstr ("https://purl.org/zarr/spec/protocol/core/3.0").data),
      (("metadata_encoding").data, .jstr ("application/json").data),
      (("extensions").data, .jarr []) ]

/-- The payload `init_hierarchy` actually writes:
`json.dumps('basic_info').encode()`, the JSON encoding of the *string*
`'basic_info'`. -/
def init_payload : Str := jdumps (.jstr ("basic_info").data)

/-- The `try: get('zarr.json') except KeyError: set(...)` logic of
`ZarrProtocolV3.init_hierarchy`, abstracted over the probe outcome:
only `KeyError` is caught; any other error propagates. -/
def init_hierarchy_from (probe : Except ZarrError Str) (st : Store) : Except ZarrError Store :=
  match probe with
  | .ok _ => .ok st
  | .error .keyError => async_set st (("zarr.json").data) (.pybytes init_payload)
  | .error e => .error e

/-- `ZarrProtocolV3.init_hierarchy` over the in-memory store. -/
def init_hierarchy (st : Store) : Except ZarrError Store :=
  init_hierarchy_from (async_get st (("zarr.json").data)) st

/-! ## The legacy adapter (`V2from3Adapter`) -/

/-- `V2from3Adapter._convert_2_to_3_keys`; the `assert` on keys starting
with `/` is modelled as an `AssertionError` outcome. -/
def convert_2_to_3_keys (v2key : Str) : Except ZarrError Str :=
  if v2key = (".zgroup").data then .ok (("meta/root.group").data)
  else if v2key = (".zarray").data then .ok (("meta/root.array").data)
  else if ("/").data.isPrefixOf v2key then .error .assertionError
  else if (".zarray").data.isSuffixOf v2key then
    .ok (("meta/root/").data ++ v2key.take (v2key.length - 7) ++ (".array").data)
  else if (".zgroup").data.isSuffixOf v2key then
    .ok (("meta/root/").data ++ v2key.take (v2key.length - 7) ++ (".group").data)
  else .ok (("data/root/").data ++ v2key)

/-- `V2from3Adapter._convert_3_to_2_keys`. -/
def convert_3_to_2_keys (v3key : Str) : Str :=
  if v3key = ("meta/root.group").data then (".zgroup").data
  else if v3key = ("meta/root.array").data then (".zarray").data
  else
    let rest := v3key.drop 10
    if (".array").data.isSuffixOf rest then rest.take (rest.length - 6) ++ (".zarray").data
    else if (".group").data.isSuffixOf rest then rest.take (rest.length - 6) ++ (".zgroup").data
    else rest

/-- Python falsiness of a JSON value (`if not data['attributes']`). -/
def pyFalsy : JValue → Bool
  | .jnull => true
  | .jbool b => !b
  | .jnum n => n = 0
  | .jstr s => s.isEmpty
  | .jarr xs => xs.isEmpty
  | .jobj fs => fs.isEmpty

/-- `V2from3Adapter.__getitem__`: translate the key, fetch from the v3
store, and rewrite group metadata (`zarr_format` re-added; for non-root
groups an empty `attributes` is dropped). -/
def adapter_getitem (st : Store) (key : Str) : Except ZarrError Str := do
  let v3key ← convert_2_to_3_keys key
  let res ← async_get st v3key
  if v3key = ("meta/root.group").data then
    match jloads res with
    | none => .error .jsonError
    | some (.jobj fields) =>
      .ok (jdumps4 (.jobj (setKey fields (("zarr_format").data) (.jnum 2))))
    | some _ => .error .typeError
  else if ("/.group").data.isSuffixOf v3key then
    match jloads res with
    | none => .error .jsonError
    | some (.jobj fields) =>
      let f2 := setKey fields (("zarr_format").data) (.jnum 2)
      match getKey f2 (("attributes").data) with
      | none => .error .keyError
      | some a =>
        let f3 := if pyFalsy a then removeKey f2 (("attributes").data) else f2
        .ok (jdumps (.jobj f3))
    | some _ => .error .typeError
  else
    .ok res

/-- `V2from3Adapter.__setitem__` on a byte-string value: translate the
key, rewrite group metadata (`zarr_format` swapped for the v3 protocol
URI at the root, stripped for non-root groups with `attributes`
reinstated), and store through the validating `set`. -/
def adapter_setitem (st : Store) (key : Str) (value : Str) : Except ZarrError Store := do
  let v3key ← convert_2_to_3_keys key
  if v3key = ("meta/root.group").data then
    match jloads value with
    | none => .error .jsonError
    | some (.jobj fields) =>
      let data := jdumps4 (.jobj (setKey fields (("zarr_format").data)
        (.jstr ("https://purl.org/zarr/spec/protocol/core/3.0").data)))
      async_set st v3key (.pybytes data)
    | some _ => .error .typeError
  else if ("/.group").data.isSuffixOf v3key then
    match jloads value with
    | none => .error .jsonError
    | some (.jobj fields) =>
      match getKey fields (("zarr_format").data) with
      | none => .error .keyError
      | some _ =>
        let f2 := removeKey fields (("zarr_format").data)
        let f3 := if (getKey f2 (("attributes").data)).isSome then f2
          else setKey f2 (("attributes").data) (.jobj [])
        async_set st v3key (.pybytes (jdumps (.jobj f3)))
    | some _ => .error .typeError
  else
    async_set st v3key (.pybytes value)

/-- Delete each key of `items` from the store in turn (the loop body of
`V2from3Adapter.__delitem__`). -/
def deleteAll : Store → List Str → Except ZarrError Store
  | st, [] => .ok st
  | st, k :: ks =>
    match store_delete st k with
    | .error e => .error e
    | .ok st2 => deleteAll st2 ks

/-- `V2from3Adapter.__delitem__`: list every v3 key with the translated
key as prefix, raise `KeyError` when there is none, else delete them
all. -/
def adapter_delitem (st : Store) (key : Str) : Except ZarrError Store := do
  let item3 ← convert_2_to_3_keys key
  if (async_list_pre st item3).isEmpty then .error .keyError
  else deleteAll st (async_list_pre st item3)

/-! ## Character-level facts -/

theorem allowedChar_ascii {c : Char} (h : allowedChar c = true) : asciiChar c = true := by
  simp only [allowedChar, Bool.or_eq_true, Bool.and_eq_true, decide_eq_true_eq] at h
  simp only [asciiChar, decide_eq_true_eq]
  rcases h with ((((((⟨h1, h2⟩ | ⟨h1, h2⟩) | ⟨h1, h2⟩) | h) | h) | h) | h)
  · omega
  · omega
  · omega
  all_goals subst h; decide

theorem all_allowed_ascii {k : Str} (h : k.all allowedChar = true) :
    k.all asciiChar = true := by
  simp only [List.all_eq_true] at h ⊢
  exact fun c hc => allowedChar_ascii (h c hc)

/-! ## Claim C1 -/

/-- Claim C1 (amended): a string containing a disallowed (for instance
non-ASCII) character makes `_valid_path` return `false` without raising;
for an allowed-charset key outside the three reserved namespaces the
validator and `get` fail with `ValueError` (`InvalidNamespace`), and
`set` on such a key also fails with `ValueError` whenever the
group-schema check and the byte-type check that run before key
validation do not themselves fail first — and in every remaining case
`set` still fails with some error, never storing the value. -/
theorem c1_validator (st : Store) (key : Str)
    (hchar : key.all allowedChar = true)
    (h1 : ("data/").data.isPrefixOf key = false)
    (h2 : ("meta/").data.isPrefixOf key = false)
    (h3 : key ≠ ("zarr.json").data) :
    valid_path key = .error .valueError ∧
    async_get st key = .error .valueError ∧
    (∀ b : Str, ("/.group").data.isSuffixOf key = false →
      async_set st key (.pybytes b) = .error .valueError) ∧
    (∀ b : Str, group_check b = .ok () →
      async_set st key (.pybytes b) = .error .valueError) ∧
    (∀ v : PyObj, ∃ e, async_set st key v = .error e) ∧
    (∀ k2 : Str, (∃ c ∈ k2, allowedChar c = false) → valid_path k2 = .ok false) := by
  have hascii := all_allowed_ascii hchar
  have hv : valid_path key = .error .valueError := by
    simp [valid_path, hascii, hchar, h1, h2, h3]
  refine ⟨hv, ?_, ?_, ?_, ?_, ?_⟩
  · simp [async_get, hv]
  · intro b hb
    simp [async_set, hb, hv, isBytes]
  · intro b hb
    by_cases hs : ("/.group").data.isSuffixOf key = true
    · simp [async_set, hs, pyDecode, hb, hv, isBytes]
    · simp only [Bool.not_eq_true] at hs
      simp [async_set, hs, hv, isBytes]
  · intro v
    by_cases hs : ("/.group").data.isSuffixOf key = true
    · cases v with
      | pybytes b =>
        cases hgc : group_check b with
        | error e => exact ⟨e, by simp [async_set, hs, pyDecode, hgc]⟩
        | ok u => exact ⟨.valueError, by cases u; simp [async_set, hs, pyDecode, hgc, hv, isBytes]⟩
      | pystr s => exact ⟨.attributeError, by simp [async_set, hs, pyDecode]⟩
      | pyint n => exact ⟨.attributeError, by simp [async_set, hs, pyDecode]⟩
    · simp only [Bool.not_eq_true] at hs
      cases v with
      | pybytes b => exact ⟨.valueError, by simp [async_set, hs, hv, isBytes]⟩
      | pystr s => exact ⟨.typeError, by simp [async_set, hs, isBytes]⟩
      | pyint n => exact ⟨.typeError, by simp [async_set, hs, isBytes]⟩
  · rintro k2 ⟨c, hc, hbad⟩
    by_cases ha : k2.all asciiChar = true
    · have hall : k2.all allowedChar = false := by
        cases hall : k2.all allowedChar with
        | false => rfl
        | true => exact absurd ((List.all_eq_true.mp hall) c hc) (by simp [hbad])
      simp [valid_path, ha, hall]
    · simp only [Bool.not_eq_true] at ha
      simp [valid_path, ha]

/-- Claim C1 counterexample: for the allowed-charset, invalid-namespace
key `x/.group` and a byte payload with key set `{a}`, `set` fails with
the group-schema `AssertionError` — not with the namespace `ValueError`
(`InvalidNamespace`) the claim requires of every `set` on such keys. -/
theorem c1_counterexample :
    async_set [] (("x/.group").data) (.pybytes (("\x7b\"a\": 1\x7d").data)) =
      .error .assertionError := rfl

/-- Witness for C1 at the concrete key `x` (allowed charset, invalid
namespace) and the concrete key `é` (disallowed character). -/
theorem c1_witness :
    valid_path (("x").data) = .error .valueError ∧
    async_get [] (("x").data) = .error .valueError ∧
    valid_path (("é").data) = .ok false := by
  have h := c1_validator [] (("x").data) (by decide) (by decide) (by decide) (by decide)
  exact ⟨h.1, h.2.1, h.2.2.2.2.2 (("é").data) ⟨'é', by decide, by decide⟩⟩

/-! ## Claim C2 -/

/-- Claim C2 counterexample: the key `meta/g1.group` denotes a group
descriptor (it ends with the group-metadata suffix `.group` of the
bit-exact namespace), yet `set` with a payload whose top-level key set
is `{attributes, extra}` succeeds — the schema check does not run,
because the code only checks keys ending in `/.group`. -/
theorem c2_counterexample :
    async_set [] (("meta/g1.group").data)
      (.pybytes (("\x7b\"attributes\": \x7b\x7d, \"extra\": 0\x7d").data)) =
      .ok [((("meta/g1.group").data),
        ("\x7b\"attributes\": \x7b\x7d, \"extra\": 0\x7d").data)] := rfl

/-- Claim C2 (amended): the JSON schema check applies exactly to keys
ending in `/.group`: for every such key, `set` parses the written bytes
and fails whenever the parse fails or the top-level key set is not
exactly `{attributes}`, and `get` does the same to the returned bytes. -/
theorem c2_group_schema (st : Store) (key : Str) (v : Str) (e : ZarrError)
    (hk : ("/.group").data.isSuffixOf key = true)
    (hv : group_check v = .error e) :
    async_set st key (.pybytes v) = .error e ∧
    (valid_path key = .ok true → store_lookup st key = some v →
      async_get st key = .error e) := by
  constructor
  · simp [async_set, hk, pyDecode, hv]
  · intro h1 h2
    simp [async_get, h1, h2, hk, hv]

/-- Witness for C2 at the key `meta/g1/.group` with a payload carrying
an extra top-level field. -/
theorem c2_witness :
    async_set [((("meta/g1/.group").data),
        ("\x7b\"attributes\": \x7b\x7d, \"extra\": 0\x7d").data)]
      (("meta/g1/.group").data)
      (.pybytes (("\x7b\"attributes\": \x7b\x7d, \"extra\": 0\x7d").data)) =
      .error .assertionError ∧
    async_get [((("meta/g1/.group").data),
        ("\x7b\"attributes\": \x7b\x7d, \"extra\": 0\x7d").data)]
      (("meta/g1/.group").data) = .error .assertionError := by
  have h := c2_group_schema
    [((("meta/g1/.group").data), ("\x7b\"attributes\": \x7b\x7d, \"extra\": 0\x7d").data)]
    (("meta/g1/.group").data)
    (("\x7b\"attributes\": \x7b\x7d, \"extra\": 0\x7d").data)
    .assertionError (by decide) rfl
  exact ⟨h.1, h.2 rfl rfl⟩

/-! ## Claim C3 -/

/-- Claim C3: evaluation of the defect.  `create_group('g1')` stores the
`DEFAULT_GROUP` payload verbatim at `meta/g1.group` and `get` returns it
unchecked, but that payload is not decodable as JSON at all (trailing
commas), hence in particular not a JSON object with key set
`{attributes}` and empty attributes. -/
theorem c3_create_group_broken_payload :
    async_create_group [] (("g1").data) =
      .ok [((("meta/g1.group").data), DEFAULT_GROUP)] ∧
    async_get [((("meta/g1.group").data), DEFAULT_GROUP)] (("meta/g1.group").data) =
      .ok DEFAULT_GROUP ∧
    jloads DEFAULT_GROUP = none ∧
    group_check DEFAULT_GROUP = .error .jsonError := ⟨rfl, rfl, rfl, rfl⟩

/-! ## Claim C10 -/

/-- Claim C10: for keys not ending in `/.group`, `set` with a non-bytes
value fails with `TypeError` before key validation runs — for every key,
valid or not, and the backend is untouched (an error outcome carries no
store). -/
theorem c10_set_nonbytes (st : Store) (key : Str) (v : PyObj)
    (hk : ("/.group").data.isSuffixOf key = false)
    (hv : isBytes v = false) :
    async_set st key v = .error .typeError := by
  simp [async_set, hk, hv]

/-- Witness for C10 at a key with both an invalid charset and an invalid
namespace. -/
theorem c10_witness : async_set [] (("bad key!").data) (.pyint 3) = .error .typeError :=
  c10_set_nonbytes [] (("bad key!").data) (.pyint 3) (by decide) rfl

/-! ## Claims C6 and C7 -/

theorem mem_dedupLast {a : Str} : ∀ {l : List Str}, a ∈ dedupLast l ↔ a ∈ l := by
  intro l
  induction l with
  | nil => simp [dedupLast]
  | cons x xs ih =>
    by_cases h : x ∈ xs
    · rw [dedupLast, if_pos h, ih]
      constructor
      · exact fun h2 => List.mem_cons_of_mem x h2
      · intro h2
        rcases List.mem_cons.mp h2 with h3 | h3
        · exact h3 ▸ h
        · exact h3
    · rw [dedupLast, if_neg h]
      simp [ih]

theorem nodup_dedupLast : ∀ (l : List Str), (dedupLast l).Nodup := by
  intro l
  induction l with
  | nil => simp [dedupLast]
  | cons x xs ih =>
    by_cases h : x ∈ xs
    · rw [dedupLast, if_pos h]; exact ih
    · rw [dedupLast, if_neg h]
      exact List.nodup_cons.mpr ⟨fun hmem => h (mem_dedupLast.mp hmem), ih⟩

theorem splitHead_no_slash : ∀ (s : Str), '/' ∉ splitHead s := by
  intro s
  induction s with
  | nil => simp [splitHead]
  | cons c cs ih =>
    by_cases h : c = '/'
    · simp [splitHead, h]
    · rw [splitHead, if_neg h]
      intro hmem
      rcases List.mem_cons.mp hmem with h2 | h2
      · exact h h2.symm
      · exact ih h2

/-- The store of the `list_dir` scenario: exactly the five keys written
by `test_scenario`, each bound to the byte string `b'\x00'`. -/
def c6_store : Store :=
  [((("data/a").data), [Char.ofNat 0]),
   ((("meta/this/is/nested").data), [Char.ofNat 0]),
   ((("meta/this/is/a/group").data), [Char.ofNat 0]),
   ((("meta/this/also/a/group").data), [Char.ofNat 0]),
   ((("meta/thisisweird/also/a/group").data), [Char.ofNat 0])]

/-- Claim C6: `list_dir(prefix)` consists exactly of the prefix re-glued
onto the first segment (before the first `/`) of each listed key with
the prefix stripped, deduplicated; and on the concrete scenario store
`list_dir("meta/this")` returns exactly `meta/this` and
`meta/thisisweird`, while `list()` returns 5 entries. -/
theorem c6_list_dir_algorithm (st : Store) (pre : Str) (x : Str) :
    (x ∈ async_list_dir st pre ↔
      ∃ k, k ∈ async_list_pre st pre ∧ x = pre ++ splitHead (k.drop pre.length)) ∧
    async_list_dir c6_store (("meta/this").data) =
      [("meta/this").data, ("meta/thisisweird").data] ∧
    (async_list c6_store).length = 5 := by
  refine ⟨?_, rfl, rfl⟩
  simp only [async_list_dir]
  constructor
  · intro hx
    obtain ⟨s, hs, hsx⟩ := List.mem_map.mp hx
    rw [mem_dedupLast] at hs
    obtain ⟨k, hk, hks⟩ := List.mem_map.mp hs
    exact ⟨k, hk, by rw [← hsx, ← hks]⟩
  · rintro ⟨k, hk, rfl⟩
    exact List.mem_map.mpr ⟨_, mem_dedupLast.mpr (List.mem_map.mpr ⟨k, hk, rfl⟩), rfl⟩

/-- Structure of `list_dir` results: each is the prefix followed by a
slash-free segment. -/
theorem mem_list_dir_struct {st : Store} {pre x : Str}
    (hx : x ∈ async_list_dir st pre) : ∃ s, x = pre ++ s ∧ '/' ∉ s := by
  simp only [async_list_dir] at hx
  obtain ⟨s, hs, hsx⟩ := List.mem_map.mp hx
  rw [mem_dedupLast] at hs
  obtain ⟨k, _, hks⟩ := List.mem_map.mp hs
  exact ⟨s, hsx.symm, hks ▸ splitHead_no_slash _⟩

/-- Claim C7: every element of `list_dir(prefix)` starts with the
prefix, the result has no duplicates, and no element is a strict
descendant (under the `/`-separated hierarchy) of another element. -/
theorem c7_list_dir_invariant (st : Store) (pre x y : Str)
    (hx : x ∈ async_list_dir st pre) (hy : y ∈ async_list_dir st pre) :
    pre.isPrefixOf x = true ∧ (async_list_dir st pre).Nodup ∧
    (x ++ ("/").data).isPrefixOf y = false := by
  obtain ⟨s1, rfl, _⟩ := mem_list_dir_struct hx
  obtain ⟨s2, rfl, hns2⟩ := mem_list_dir_struct hy
  refine ⟨List.isPrefixOf_iff_prefix.mpr ⟨s1, rfl⟩, ?_, ?_⟩
  · exact (nodup_dedupLast _).map fun a b h => List.append_cancel_left h
  · cases hb : ((pre ++ s1) ++ ("/").data).isPrefixOf (pre ++ s2) with
    | false => rfl
    | true =>
      exfalso
      have hpfx := List.isPrefixOf_iff_prefix.mp hb
      rw [List.append_assoc] at hpfx
      obtain ⟨t, ht⟩ := (List.prefix_append_right_inj pre).mp hpfx
      exact hns2 (ht ▸ List.mem_append_left t
        (List.mem_append_right s1 (List.mem_singleton.mpr rfl)))

/-- Witness for C7 on the scenario store. -/
theorem c7_witness :
    ("meta/this").data.isPrefixOf (("meta/this").data) = true ∧
    (async_list_dir c6_store (("meta/this").data)).Nodup ∧
    ((("meta/this").data ++ ("/").data).isPrefixOf (("meta/thisisweird").data)) = false := by
  have h := c7_list_dir_invariant c6_store (("meta/this").data) (("meta/this").data)
    (("meta/thisisweird").data) (by decide) (by decide)
  exact ⟨h.1, h.2.1, h.2.2⟩

/-! ## Claim C8 -/

theorem store_set_backend_absent {st : Store} {k : Str} (v : Str)
    (h : store_lookup st k = none) : store_set_backend st k v = st ++ [(k, v)] := by
  induction st with
  | nil => rfl
  | cons kv rest ih =>
    obtain ⟨k0, v0⟩ := kv
    rw [store_lookup] at h
    by_cases hk : k0 = k
    · rw [if_pos hk] at h
      exact absurd h (by simp)
    · rw [if_neg hk] at h
      rw [store_set_backend, if_neg hk, ih h]
      simp

/-- Claim C8: the hierarchy bootstrap is idempotent — when `zarr.json`
is present the store is returned unchanged, when it is absent exactly
the key `zarr.json` is appended, and the payload written is the JSON
encoding of the literal string `basic_info`, not of the constructed
root-descriptor object; only a `KeyError` outcome of the probe is
swallowed, every other error propagates. -/
theorem c8_init_hierarchy (st : Store) :
    ((∃ w, store_lookup st (("zarr.json").data) = some w) → init_hierarchy st = .ok st) ∧
    (store_lookup st (("zarr.json").data) = none →
      init_hierarchy st = .ok (st ++ [((("zarr.json").data), init_payload)])) ∧
    init_payload = jdumps (.jstr ("basic_info").data) ∧
    init_payload ≠ jdumps basic_info_obj ∧
    (∀ e, e ≠ ZarrError.keyError → init_hierarchy_from (.error e) st = .error e) := by
  have hv : valid_path (("zarr.json").data) = .ok true := rfl
  have hs : ("/.group").data.isSuffixOf (("zarr.json").data) = false := rfl
  refine ⟨?_, ?_, rfl, by decide, ?_⟩
  · rintro ⟨w, hw⟩
    simp [init_hierarchy, init_hierarchy_from, async_get, hv, hs, hw]
  · intro hw
    have hg : async_get st (("zarr.json").data) = .error .keyError := by
      simp [async_get, hv, hw]
    rw [init_hierarchy, hg]
    show async_set st (("zarr.json").data) (.pybytes init_payload) = _
    simp [async_set, hs, hv, isBytes, bytesOf, store_set_backend_absent _ hw]
  · intro e he
    cases e
    case keyError => exact absurd rfl he
    all_goals rfl

/-- Witness for C8: bootstrapping an empty backend writes exactly
`zarr.json`, and bootstrapping again leaves the store unchanged. -/
theorem c8_witness :
    init_hierarchy [] = .ok [((("zarr.json").data), init_payload)] ∧
    init_hierarchy [((("zarr.json").data), init_payload)] =
      .ok [((("zarr.json").data), init_payload)] :=
  ⟨(c8_init_hierarchy []).2.1 rfl,
   (c8_init_hierarchy [((("zarr.json").data), init_payload)]).1 ⟨init_payload, rfl⟩⟩

/-! ## Claim C9 -/

theorem store_lookup_isSome {st : Store} {k : Str} :
    (store_lookup st k).isSome = true ↔ k ∈ st.map Prod.fst := by
  induction st with
  | nil => simp [store_lookup]
  | cons kv rest ih =>
    obtain ⟨k0, v0⟩ := kv
    by_cases h : k0 = k
    · subst h
      simp [store_lookup]
    · rw [store_lookup, if_neg h]
      simp [ih, Ne.symm h]

theorem removeEntry_eq_filter {st : Store} (k : Str)
    (hnd : (st.map Prod.fst).Nodup) :
    store_delete.removeEntry st k = st.filter (fun kv => kv.1 ≠ k) := by
  induction st with
  | nil => rfl
  | cons kv rest ih =>
    obtain ⟨k0, v0⟩ := kv
    simp only [List.map_cons, List.nodup_cons] at hnd
    by_cases hk : k0 = k
    · subst hk
      rw [store_delete.removeEntry, if_pos rfl]
      have : rest.filter (fun kv => kv.1 ≠ k0) = rest :=
        List.filter_eq_self.mpr fun a ha => by
          simp only [decide_eq_true_eq]
          exact fun hc => hnd.1 (hc ▸ List.mem_map.mpr ⟨a, ha, rfl⟩)
      rw [List.filter_cons, this]
      simp
    · rw [store_delete.removeEntry, if_neg hk, ih hnd.2, List.filter_cons]
      simp [hk]

theorem store_delete_present {st : Store} {k : Str}
    (hnd : (st.map Prod.fst).Nodup) (hk : k ∈ st.map Prod.fst) :
    store_delete st k = .ok (st.filter (fun kv => kv.1 ≠ k)) := by
  obtain ⟨w, hw⟩ := Option.isSome_iff_exists.mp (store_lookup_isSome.mpr hk)
  simp only [store_delete, hw]
  rw [removeEntry_eq_filter k hnd]

theorem deleteAll_filter : ∀ (items : List Str) (st : Store),
    (st.map Prod.fst).Nodup → items.Nodup →
    (∀ i ∈ items, i ∈ st.map Prod.fst) →
    deleteAll st items = .ok (st.filter (fun kv => kv.1 ∉ items)) := by
  intro items
  induction items with
  | nil =>
    intro st _ _ _
    have h : st.filter (fun kv => kv.1 ∉ ([] : List Str)) = st :=
      List.filter_eq_self.mpr fun a _ => by simp
    simp [deleteAll, h]
  | cons k ks ih =>
    intro st hnd hitems hsub
    have hk : k ∈ st.map Prod.fst := hsub k (List.mem_cons_self k ks)
    have hks : ks.Nodup := (List.nodup_cons.mp hitems).2
    have hkks : k ∉ ks := (List.nodup_cons.mp hitems).1
    have hstep : deleteAll st (k :: ks) = deleteAll (st.filter (fun kv => kv.1 ≠ k)) ks := by
      rw [deleteAll, store_delete_present hnd hk]
    rw [hstep]
    have hnd2 : ((st.filter (fun kv => kv.1 ≠ k)).map Prod.fst).Nodup :=
      hnd.sublist ((List.filter_sublist st).map Prod.fst)
    have hsub2 : ∀ i ∈ ks, i ∈ (st.filter (fun kv => kv.1 ≠ k)).map Prod.fst := by
      intro i hi
      obtain ⟨kv, hkv, hkvi⟩ := List.mem_map.mp (hsub i (List.mem_cons_of_mem k hi))
      refine List.mem_map.mpr ⟨kv, List.mem_filter.mpr ⟨hkv, ?_⟩, hkvi⟩
      simp only [decide_eq_true_eq, hkvi]
      exact fun hik => hkks (hik ▸ hi)
    rw [ih _ hnd2 hks hsub2, List.filter_filter]
    congr 1
    apply List.filter_congr
    intro a _
    simp only [List.mem_cons, not_or, Bool.decide_and, decide_not]
    exact Bool.and_comm _ _

/-- Claim C9: deleting a v2 key through the adapter removes from the
wrapped v3 store exactly the entries whose key has the translated key as
a prefix, and fails with `KeyError`, leaving no store, when no stored
key has that prefix. -/
theorem c9_adapter_delete (st : Store) (k : Str) (v3 : Str)
    (hnd : (st.map Prod.fst).Nodup)
    (hc : convert_2_to_3_keys k = .ok v3) :
    (async_list_pre st v3 = [] → adapter_delitem st k = .error .keyError) ∧
    (async_list_pre st v3 ≠ [] →
      adapter_delitem st k = .ok (st.filter (fun kv => !(v3.isPrefixOf kv.1)))) := by
  have hbind : adapter_delitem st k =
      (if (async_list_pre st v3).isEmpty then .error .keyError
       else deleteAll st (async_list_pre st v3)) := by
    rw [adapter_delitem, hc]
    rfl
  constructor
  · intro h
    rw [hbind, h]
    rfl
  · intro h
    have hne : (async_list_pre st v3).isEmpty = false := by
      cases he : (async_list_pre st v3).isEmpty
      · rfl
      · exact absurd (List.isEmpty_iff.mp he) h
    rw [hbind, hne]
    simp only [Bool.false_eq_true, if_false]
    have hitems : (async_list_pre st v3).Nodup := hnd.filter _
    have hsub : ∀ i ∈ async_list_pre st v3, i ∈ st.map Prod.fst := by
      intro i hi
      exact (List.mem_filter.mp hi).1
    rw [deleteAll_filter _ _ hnd hitems hsub]
    congr 1
    apply List.filter_congr
    intro a ha
    have hmem : a.1 ∈ st.map Prod.fst := List.mem_map.mpr ⟨a, ha, rfl⟩
    cases hp : v3.isPrefixOf a.1
    · simp only [Bool.not_false, decide_eq_true_eq]
      intro hin
      exact absurd ((List.mem_filter.mp hin).2) (by simp [hp])
    · simp only [Bool.not_true, decide_eq_false_iff_not, not_not]
      exact List.mem_filter.mpr ⟨hmem, hp⟩

/-- A store holding a two-chunk subtree under `data/root/g` plus the
root group descriptor. -/
def c9_store : Store :=
  [((("data/root/g/1").data), []),
   ((("data/root/g/2").data), []),
   ((("meta/root.group").data), [])]

/-- Witness for C9: deleting the v2 key `g` removes the whole
`data/root/g` subtree and nothing else. -/
theorem c9_witness :
    adapter_delitem c9_store (("g").data) =
      .ok [((("meta/root.group").data), [])] ∧
    adapter_delitem [] (("g").data) = .error .keyError := by
  have h1 := (c9_adapter_delete c9_store (("g").data) (("data/root/g").data)
    (by decide) rfl).2 (by decide)
  have h2 := (c9_adapter_delete [] (("g").data) (("data/root/g").data)
    (by decide) rfl).1 rfl
  exact ⟨h1, h2⟩

/-! ## Claim C4 -/

/-- Claim C4 counterexample: the v2 data key `a.array` (an arbitrary
relative data path not starting with `/`) translates to
`data/root/a.array`, which translates back to `a.zarray`, not the
original key — the v2-to-v3-to-v2 round trip is not the identity on all
adapter-producible keys. -/
theorem c4_counterexample :
    convert_2_to_3_keys (("a.array").data) = .ok (("data/root/a.array").data) ∧
    convert_3_to_2_keys (("data/root/a.array").data) = ("a.zarray").data ∧
    ("a.zarray").data ≠ ("a.array").data := ⟨rfl, rfl, by decide⟩

/-- Claim C4 (amended): translating a v2 key to v3 and back is the
identity for the root names `.zgroup`/`.zarray`, for every key ending in
`.zgroup` or `.zarray`, and for every relative data path that does not
end in `.array` or `.group` (data paths with those endings are
mistranslated on the way back, as the counterexample shows). -/
theorem c4_roundtrip (k : Str)
    (hs : ("/").data.isPrefixOf k = false)
    (hcase : k = (".zgroup").data ∨ k = (".zarray").data ∨
      (".zgroup").data.isSuffixOf k = true ∨ (".zarray").data.isSuffixOf k = true ∨
      ((".array").data.isSuffixOf k = false ∧ (".group").data.isSuffixOf k = false)) :
    ∃ v3, convert_2_to_3_keys k = .ok v3 ∧ convert_3_to_2_keys v3 = k := by
  by_cases h1 : k = (".zgroup").data
  · subst h1
    exact ⟨("meta/root.group").data, rfl, rfl⟩
  by_cases h2 : k = (".zarray").data
  · subst h2
    exact ⟨("meta/root.array").data, rfl, rfl⟩
  have hsne : ¬(("/").data.isPrefixOf k = true) := by simp [hs]
  by_cases h3 : (".zarray").data.isSuffixOf k = true
  · -- key ending in `.zarray`
    refine ⟨("meta/root/").data ++ k.take (k.length - 7) ++ (".array").data, ?_, ?_⟩
    · simp only [convert_2_to_3_keys, if_neg h1, if_neg h2, if_neg hsne, if_pos h3]
    · obtain ⟨stem, rfl⟩ : ∃ t, k = t ++ (".zarray").data := by
        obtain ⟨t, ht⟩ := List.isSuffixOf_iff_suffix.mp h3
        exact ⟨t, ht.symm⟩
      have hlen : (stem ++ (".zarray").data).length - 7 = stem.length := by
        rw [List.length_append]
        rfl
      rw [hlen, List.take_left]
      have hne1 : ("meta/root/").data ++ stem ++ (".array").data ≠ ("meta/root.group").data := by
        intro h
        have hl := congrArg List.length h
        rw [List.length_append, List.length_append] at hl
        simp only [show (("meta/root/").data).length = 10 from rfl,
          show ((".array").data).length = 6 from rfl,
          show (("meta/root.group").data).length = 15 from rfl] at hl
        omega
      have hne2 : ("meta/root/").data ++ stem ++ (".array").data ≠ ("meta/root.array").data := by
        intro h
        have hl := congrArg List.length h
        rw [List.length_append, List.length_append] at hl
        simp only [show (("meta/root/").data).length = 10 from rfl,
          show ((".array").data).length = 6 from rfl,
          show (("meta/root.array").data).length = 15 from rfl] at hl
        omega
      have hdrop : (("meta/root/").data ++ stem ++ (".array").data).drop 10 =
          stem ++ (".array").data := by
        rw [List.append_assoc]
        exact List.drop_left' rfl
      have hsfx : (".array").data.isSuffixOf (stem ++ (".array").data) = true :=
        List.isSuffixOf_iff_suffix.mpr ⟨stem, rfl⟩
      simp only [convert_3_to_2_keys, if_neg hne1, if_neg hne2, hdrop, if_pos hsfx]
      have hlen2 : (stem ++ (".array").data).length - 6 = stem.length := by
        rw [List.length_append]
        rfl
      rw [hlen2, List.take_left]
  by_cases h4 : (".zgroup").data.isSuffixOf k = true
  · -- key ending in `.zgroup`
    refine ⟨("meta/root/").data ++ k.take (k.length - 7) ++ (".group").data, ?_, ?_⟩
    · simp only [convert_2_to_3_keys, if_neg h1, if_neg h2, if_neg hsne, if_neg h3, if_pos h4]
    · obtain ⟨stem, rfl⟩ : ∃ t, k = t ++ (".zgroup").data := by
        obtain ⟨t, ht⟩ := List.isSuffixOf_iff_suffix.mp h4
        exact ⟨t, ht.symm⟩
      have hlen : (stem ++ (".zgroup").data).length - 7 = stem.length := by
        rw [List.length_append]
        rfl
      rw [hlen, List.take_left]
      have hne1 : ("meta/root/").data ++ stem ++ (".group").data ≠ ("meta/root.group").data := by
        intro h
        have hl := congrArg List.length h
        rw [List.length_append, List.length_append] at hl
        simp only [show (("meta/root/").data).length = 10 from rfl,
          show ((".group").data).length = 6 from rfl,
          show (("meta/root.group").data).length = 15 from rfl] at hl
        omega
      have hne2 : ("meta/root/").data ++ stem ++ (".group").data ≠ ("meta/root.array").data := by
        intro h
        have hl := congrArg List.length h
        rw [List.length_append, List.length_append] at hl
        simp only [show (("meta/root/").data).length = 10 from rfl,
          show ((".group").data).length = 6 from rfl,
          show (("meta/root.array").data).length = 15 from rfl] at hl
        omega
      have hdrop : (("meta/root/").data ++ stem ++ (".group").data).drop 10 =
          stem ++ (".group").data := by
        rw [List.append_assoc]
        exact List.drop_left' rfl
      have hnosfx : (".array").data.isSuffixOf (stem ++ (".group").data) = false := by
        cases hb : (".array").data.isSuffixOf (stem ++ (".group").data) with
        | false => rfl
        | true =>
          exfalso
          obtain ⟨t, ht⟩ := List.isSuffixOf_iff_suffix.mp hb
          have hl := congrArg List.length ht
          rw [List.length_append, List.length_append] at hl
          have htl : t.length = stem.length := by
            simp only [show ((".array").data).length = 6 from rfl,
              show ((".group").data).length = 6 from rfl] at hl
            omega
          exact absurd (List.append_inj ht htl).2 (by decide)
      have hsfx : (".group").data.isSuffixOf (stem ++ (".group").data) = true :=
        List.isSuffixOf_iff_suffix.mpr ⟨stem, rfl⟩
      simp only [convert_3_to_2_keys, if_neg hne1, if_neg hne2, hdrop, hnosfx,
        Bool.false_eq_true, if_false, if_pos hsfx]
      have hlen2 : (stem ++ (".group").data).length - 6 = stem.length := by
        rw [List.length_append]
        rfl
      rw [hlen2, List.take_left]
  · -- data path
    obtain ⟨ha, hg⟩ : (".array").data.isSuffixOf k = false ∧
        (".group").data.isSuffixOf k = false := by
      rcases hcase with h | h | h | h | h
      · exact absurd h h1
      · exact absurd h h2
      · exact absurd h h4
      · exact absurd h h3
      · exact h
    refine ⟨("data/root/").data ++ k, ?_, ?_⟩
    · simp only [convert_2_to_3_keys, if_neg h1, if_neg h2, if_neg hsne, if_neg h3, if_neg h4]
    · have hne1 : ("data/root/").data ++ k ≠ ("meta/root.group").data := by
        intro h
        rw [show ("data/root/").data = 'd' :: ("ata/root/").data from rfl,
          show ("meta/root.group").data = 'm' :: ("eta/root.group").data from rfl,
          List.cons_append] at h
        exact absurd (List.cons.inj h).1 (by decide)
      have hne2 : ("data/root/").data ++ k ≠ ("meta/root.array").data := by
        intro h
        rw [show ("data/root/").data = 'd' :: ("ata/root/").data from rfl,
          show ("meta/root.array").data = 'm' :: ("eta/root.array").data from rfl,
          List.cons_append] at h
        exact absurd (List.cons.inj h).1 (by decide)
      have hdrop : (("data/root/").data ++ k).drop 10 = k := List.drop_left' rfl
      simp only [convert_3_to_2_keys, if_neg hne1, if_neg hne2, hdrop, ha, hg,
        Bool.false_eq_true, if_false]

/-- Witness for C4 at the nested group key `g1/.zgroup`. -/
theorem c4_witness :
    ∃ v3, convert_2_to_3_keys (("g1/.zgroup").data) = .ok v3 ∧
      convert_3_to_2_keys v3 = ("g1/.zgroup").data :=
  c4_roundtrip (("g1/.zgroup").data) (by decide) (.inr (.inr (.inl (by decide))))

/-! ## Claim C5: serializer/parser round trip infrastructure

The adapter's root-group metadata rewriting composes `json.loads` and
`json.dumps`.  To reason about it we prove that parsing a dumped value
returns that value, for values whose strings are printable ASCII and
whose objects have distinct keys. -/

def headNotDigit : Str → Bool
  | [] => true
  | c :: _ => !isDigitChar c

/-- Printable ASCII characters, serialized without `\u` escapes. -/
def safeChar (c : Char) : Bool := 32 ≤ c.toNat && c.toNat ≤ 126

def safeStr (s : Str) : Bool := s.all safeChar

mutual

/-- Well-formedness: printable-ASCII strings, objects with distinct
keys. -/
def jwf : JValue → Bool
  | .jnull => true
  | .jbool _ => true
  | .jnum _ => true
  | .jstr s => safeStr s
  | .jarr xs => jwfList xs
  | .jobj fs => jwfFields fs && decide ((fs.map Prod.fst).Nodup)

def jwfList : List JValue → Bool
  | [] => true
  | x :: xs => jwf x && jwfList xs

def jwfFields : List (Str × JValue) → Bool
  | [] => true
  | kv :: fs => safeStr kv.1 && jwf kv.2 && jwfFields fs

end

mutual

/-- A fuel bound sufficient for `parseVal` to parse the dump of a
value. -/
def jfuel : JValue → Nat
  | .jnull => 1
  | .jbool _ => 1
  | .jnum _ => 1
  | .jstr _ => 1
  | .jarr xs => 1 + jfuelList xs
  | .jobj fs => 1 + jfuelFields fs

def jfuelList : List JValue → Nat
  | [] => 0
  | x :: xs => 1 + jfuel x + jfuelList xs

def jfuelFields : List (Str × JValue) → Nat
  | [] => 0
  | kv :: fs => 1 + jfuel kv.2 + jfuelFields fs

end

theorem jfuel_pos (x : JValue) : 1 ≤ jfuel x := by
  cases x <;> simp [jfuel]

theorem stripLit_self (a r : Str) : stripLit a (a ++ r) = some r := by
  induction a with
  | nil => rfl
  | cons c cs ih => simp [stripLit, ih]

/-! ### Whitespace facts -/

theorem skipWs_not_ws {c : Char} (h : isWsChar c = false) (r : Str) :
    skipWs (c :: r) = c :: r := by
  simp [skipWs, h]

theorem skipWs_append_ws {a : Str} (h : a.all isWsChar = true) (r : Str) :
    skipWs (a ++ r) = skipWs r := by
  induction a with
  | nil => rfl
  | cons c cs ih =>
    simp only [List.all_cons, Bool.and_eq_true] at h
    rw [List.cons_append, skipWs, if_pos h.1]
    exact ih h.2

theorem padSp_ws (n : Nat) : (padSp n).all isWsChar = true := by
  simp only [padSp, List.all_eq_true]
  intro c hc
  rw [List.eq_of_mem_replicate hc]
  rfl

theorem skipWs_openSep (ind : Option Nat) (lvl : Nat) (r : Str) :
    skipWs (openSep ind lvl ++ r) = skipWs r := by
  cases ind with
  | none => rfl
  | some i =>
    rw [openSep, List.cons_append, skipWs, if_pos (show isWsChar '\n' = true from rfl)]
    exact skipWs_append_ws (padSp_ws _) r

theorem itemSep_shape (ind : Option Nat) (lvl : Nat) :
    ∃ t, itemSep ind lvl = ',' :: t ∧ t.all isWsChar = true := by
  cases ind with
  | none => exact ⟨[' '], rfl, rfl⟩
  | some i => exact ⟨'\n' :: padSp (i * lvl), rfl, by simp [padSp_ws, isWsChar]⟩

theorem headNotDigit_itemSep (ind : Option Nat) (lvl : Nat) (r : Str) :
    headNotDigit (itemSep ind lvl ++ r) = true := by
  cases ind <;> rfl

theorem headNotDigit_openSep_cons (ind : Option Nat) (lvl : Nat) {e : Char}
    (he : isDigitChar e = false) (r : Str) :
    headNotDigit (openSep ind lvl ++ e :: r) = true := by
  cases ind with
  | none => simp [openSep, headNotDigit, he]
  | some i => rfl

/-! ### Digit facts -/

theorem digitChar_toNat {d : Nat} (h : d < 10) : (digitChar d).toNat = 48 + d := by
  have hv : (48 + d).isValidChar := Or.inl (by omega)
  rw [digitChar, Char.ofNat, dif_pos hv]
  rfl

theorem isDigitChar_digitChar {d : Nat} (h : d < 10) : isDigitChar (digitChar d) = true := by
  simp only [isDigitChar, digitChar_toNat h, Bool.and_eq_true, decide_eq_true_eq]
  omega

theorem digitVal_digitChar {d : Nat} (h : d < 10) : digitVal (digitChar d) = d := by
  simp [digitVal, digitChar_toNat h]

theorem natDigitsF_spec : ∀ (f n : Nat), n < f →
    natDigitsF f n ≠ [] ∧ (natDigitsF f n).all isDigitChar = true := by
  intro f
  induction f with
  | zero => omega
  | succ f ih =>
    intro n hn
    by_cases h10 : n < 10
    · rw [natDigitsF, if_pos h10]
      exact ⟨by simp, by simp [isDigitChar_digitChar h10]⟩
    · rw [natDigitsF, if_neg h10]
      have hrec := ih (n / 10) (by omega)
      constructor
      · simp
      · rw [List.all_append, hrec.2]
        simp [isDigitChar_digitChar (Nat.mod_lt n (by omega))]

def foldDigits (acc : Nat) (ds : Str) : Nat :=
  ds.foldl (fun a c => a * 10 + digitVal c) acc

theorem natDigitsF_fold : ∀ (n f : Nat), n < f → foldDigits 0 (natDigitsF f n) = n := by
  intro n
  induction n using Nat.strong_induction_on with
  | _ n ih =>
    intro f hf
    match f with
    | f + 1 =>
      by_cases h10 : n < 10
      · rw [natDigitsF, if_pos h10]
        simp [foldDigits, List.foldl, digitVal_digitChar h10]
      · rw [natDigitsF, if_neg h10]
        have hdiv : n / 10 < n := Nat.div_lt_self (by omega) (by omega)
        have hrec := ih (n / 10) hdiv f (by omega)
        rw [foldDigits, List.foldl_append]
        rw [foldDigits] at hrec
        rw [hrec]
        simp [List.foldl, digitVal_digitChar (Nat.mod_lt n (by omega))]
        omega

theorem parseDigitsLoop_spec : ∀ {ds : Str}, ds.all isDigitChar = true →
    ∀ {r : Str}, headNotDigit r = true → ∀ (acc : Nat),
    parseDigitsLoop (ds ++ r) acc = (foldDigits acc ds, r) := by
  intro ds
  induction ds with
  | nil =>
    intro _ r hr acc
    cases r with
    | nil => rfl
    | cons c cs =>
      simp only [headNotDigit, Bool.not_eq_true'] at hr
      simp [parseDigitsLoop, hr, foldDigits]
  | cons c cs ih =>
    intro hds r hr acc
    simp only [List.all_cons, Bool.and_eq_true] at hds
    rw [List.cons_append, parseDigitsLoop, if_pos hds.1, ih hds.2 hr]
    simp [foldDigits]

theorem digit_facts {c : Char} (h : isDigitChar c = true) :
    ¬(c = '"') ∧ ¬(c = lbrace) ∧ ¬(c = '[') ∧ ¬(c = 't') ∧ ¬(c = 'f') ∧
    ¬(c = 'n') ∧ isWsChar c = false ∧ ¬(c = '-') ∧
    ¬(c = ']') ∧ ¬(c = rbrace) ∧ ¬(c = ',') := by
  simp only [isDigitChar, Bool.and_eq_true, decide_eq_true_eq] at h
  have hws : isWsChar c = false := by
    cases hw : isWsChar c with
    | false => rfl
    | true =>
      exfalso
      simp only [isWsChar, Bool.or_eq_true, decide_eq_true_eq] at hw
      rcases hw with ((he | he) | he) | he <;> rw [he] at h <;> simp at h
  refine ⟨?_, ?_, ?_, ?_, ?_, ?_, hws, ?_, ?_, ?_, ?_⟩
  all_goals (intro he; rw [he] at h; simp [lbrace, rbrace] at h)

theorem parseNum_dumpInt (n : Int) {r : Str} (hr : headNotDigit r = true) :
    parseNum (dumpInt n ++ r) = some (n, r) := by
  have hnd := natDigitsF_spec (n.natAbs + 1) n.natAbs (by omega)
  obtain ⟨c, ds, hds⟩ : ∃ c ds, natDigits n.natAbs = c :: ds := by
    cases hh : natDigits n.natAbs with
    | nil => exact absurd hh hnd.1
    | cons c ds => exact ⟨c, ds, rfl⟩
  rw [natDigits] at hds
  have hall : (c :: ds).all isDigitChar = true := hds ▸ hnd.2
  simp only [List.all_cons, Bool.and_eq_true] at hall
  have hfold : foldDigits 0 (c :: ds) = n.natAbs := hds ▸ natDigitsF_fold n.natAbs (n.natAbs + 1) (by omega)
  have hdf := digit_facts hall.1
  have hloop := parseDigitsLoop_spec hall.2 hr (digitVal c)
  have hacc : foldDigits (digitVal c) ds = n.natAbs := by
    rw [← hfold]; simp [foldDigits, List.foldl]
  by_cases hn : n < 0
  · rw [dumpInt, if_pos hn, natDigits, hds, List.cons_append, List.cons_append]
    have habs : ((n.natAbs : Nat) : Int) = -n := Int.ofNat_natAbs_of_nonpos (le_of_lt hn)
    simp [parseNum, hall.1, hloop, hacc, habs]
  · rw [dumpInt, if_neg hn, natDigits, hds, List.cons_append]
    have habs : ((n.natAbs : Nat) : Int) = n := Int.natAbs_of_nonneg (by omega)
    simp [parseNum, hall.1, hdf.2.2.2.2.2.2.2, hloop, hacc, habs]

/-! ### String escaping round trip -/

theorem escChar_plain {c : Char} (hs : safeChar c = true) (h1 : ¬(c = '"'))
    (h2 : ¬(c = '\\')) : escChar c = [c] := by
  simp only [safeChar, Bool.and_eq_true, decide_eq_true_eq] at hs
  rw [escChar, if_neg h1, if_neg h2]
  rw [if_neg (fun he => by rw [he] at hs; exact absurd hs.1 (by decide))]
  rw [if_neg (fun he => by rw [he] at hs; exact absurd hs.1 (by decide))]
  rw [if_neg (fun he => by rw [he] at hs; exact absurd hs.1 (by decide))]
  rw [if_neg (fun he : c.toNat = 8 => by omega)]
  rw [if_neg (fun he : c.toNat = 12 => by omega)]
  rw [if_pos (by simp only [Bool.and_eq_true, decide_eq_true_eq]; exact hs)]

theorem parseStrBody_esc {s : Str} (hs : safeStr s = true) (r : Str) :
    parseStrBody (escStrBody s ++ r) = some (s, r) := by
  induction s with
  | nil =>
    rw [escStrBody, List.singleton_append, parseStrBody.eq_def]
    simp
  | cons c cs ih =>
    simp only [safeStr, List.all_cons, Bool.and_eq_true] at hs
    have ihr := ih hs.2
    rw [escStrBody]
    by_cases h1 : c = '"'
    · subst h1
      rw [show escChar '"' = '\\' :: '"' :: [] from rfl]
      simp [parseStrBody, unescapeChar, ihr]
    by_cases h2 : c = '\\'
    · subst h2
      rw [show escChar '\\' = '\\' :: '\\' :: [] from rfl]
      simp [parseStrBody, unescapeChar, ihr]
    · rw [escChar_plain hs.1 h1 h2, List.singleton_append, parseStrBody.eq_def]
      simp [h1, h2, ihr]

/-! ### The first character of a dump -/

theorem dump_head (x : JValue) (ind : Option Nat) (lvl : Nat) :
    ∃ c cs, dumpVal ind lvl x = c :: cs ∧ isWsChar c = false ∧
      ¬(c = ']') ∧ ¬(c = rbrace) ∧ ¬(c = ',') := by
  cases x with
  | jnull => exact ⟨'n', _, rfl, rfl, by decide, by decide, by decide⟩
  | jbool b =>
    cases b
    · exact ⟨'f', _, rfl, rfl, by decide, by decide, by decide⟩
    · exact ⟨'t', _, rfl, rfl, by decide, by decide, by decide⟩
  | jnum n =>
    by_cases hn : n < 0
    · exact ⟨'-', _, by rw [dumpVal, dumpInt, if_pos hn], rfl, by decide, by decide, by decide⟩
    · have hnd := natDigitsF_spec (n.natAbs + 1) n.natAbs (by omega)
      obtain ⟨c, ds, hds⟩ : ∃ c ds, natDigits n.natAbs = c :: ds := by
        cases hh : natDigits n.natAbs with
        | nil => rw [natDigits] at hh; exact absurd hh hnd.1
        | cons c ds => exact ⟨c, ds, rfl⟩
      have hall : (c :: ds).all isDigitChar = true := by
        rw [← hds, natDigits]
        exact hnd.2
      simp only [List.all_cons, Bool.and_eq_true] at hall
      have hdf := digit_facts hall.1
      exact ⟨c, ds, by rw [dumpVal, dumpInt, if_neg hn, hds], hdf.2.2.2.2.2.2.1,
        hdf.2.2.2.2.2.2.2.2.1, hdf.2.2.2.2.2.2.2.2.2.1, hdf.2.2.2.2.2.2.2.2.2.2⟩
  | jstr s => exact ⟨'"', _, rfl, rfl, by decide, by decide, by decide⟩
  | jarr xs =>
    cases xs
    · exact ⟨'[', _, rfl, rfl, by decide, by decide, by decide⟩
    · exact ⟨'[', _, rfl, rfl, by decide, by decide, by decide⟩
  | jobj fs =>
    cases fs
    · exact ⟨lbrace, _, rfl, rfl, by decide, by decide, by decide⟩
    · exact ⟨lbrace, _, rfl, rfl, by decide, by decide, by decide⟩

theorem skipWs_dump (x : JValue) (ind : Option Nat) (lvl : Nat) (r : Str) :
    skipWs (dumpVal ind lvl x ++ r) = dumpVal ind lvl x ++ r := by
  obtain ⟨c, cs, hd, hws, _⟩ := dump_head x ind lvl
  rw [hd, List.cons_append, skipWs_not_ws hws]

/-! ### Python-dict update facts -/

theorem setKey_absent {fs : List (Str × JValue)} {k : Str} (v : JValue)
    (h : ∀ p ∈ fs, p.1 ≠ k) : setKey fs k v = fs ++ [(k, v)] := by
  induction fs with
  | nil => rfl
  | cons kv rest ih =>
    rw [setKey, if_neg (h kv (List.mem_cons_self kv rest)), List.cons_append,
      ih (fun p hp => h p (List.mem_cons_of_mem kv hp))]

theorem getKey_setKey_self {fs : List (Str × JValue)} {k : Str} {v : JValue}
    (h : getKey fs k = some v) : setKey fs k v = fs := by
  induction fs with
  | nil => exact absurd h (by simp [getKey])
  | cons kv rest ih =>
    obtain ⟨k0, v0⟩ := kv
    by_cases hk : k0 = k
    · rw [getKey, if_pos hk] at h
      rw [setKey, if_pos hk, Option.some.inj h]
    · rw [getKey, if_neg hk] at h
      rw [setKey, if_neg hk, ih h]

theorem setKey_setKey (fs : List (Str × JValue)) (k : Str) (v1 v2 : JValue) :
    setKey (setKey fs k v1) k v2 = setKey fs k v2 := by
  induction fs with
  | nil => simp [setKey]
  | cons kv rest ih =>
    by_cases hk : kv.1 = k
    · rw [setKey, if_pos hk, setKey, if_pos hk, setKey, if_pos hk]
    · rw [setKey, if_neg hk, setKey, if_neg hk, setKey, if_neg hk, ih]

theorem setKey_keys_present {fs : List (Str × JValue)} {k : Str} {v w : JValue}
    (h : getKey fs k = some w) :
    (setKey fs k v).map Prod.fst = fs.map Prod.fst := by
  induction fs with
  | nil => exact absurd h (by simp [getKey])
  | cons kv rest ih =>
    by_cases hk : kv.1 = k
    · rw [setKey, if_pos hk]
      simp
    · rw [getKey] at h
      rw [if_neg hk] at h
      rw [setKey, if_neg hk]
      simp [ih h]

theorem jwfFields_setKey {fs : List (Str × JValue)} {k : Str} {v : JValue}
    (hwf : jwfFields fs = true) (hsk : safeStr k = true) (hv : jwf v = true) :
    jwfFields (setKey fs k v) = true := by
  induction fs with
  | nil => simp [setKey, jwfFields, hsk, hv]
  | cons kv rest ih =>
    rw [jwfFields, Bool.and_eq_true, Bool.and_eq_true] at hwf
    by_cases hk : kv.1 = k
    · rw [setKey, if_pos hk, jwfFields]
      simp [hwf.1.1, hv, hwf.2]
    · rw [setKey, if_neg hk, jwfFields]
      simp [hwf.1.1, hwf.1.2, ih hwf.2]

theorem jwf_setKey {fs : List (Str × JValue)} {k : Str} {v w : JValue}
    (hwf : jwf (.jobj fs) = true) (hsk : safeStr k = true) (hv : jwf v = true)
    (hk : getKey fs k = some w) : jwf (.jobj (setKey fs k v)) = true := by
  rw [jwf, Bool.and_eq_true, decide_eq_true_eq] at hwf
  rw [jwf, Bool.and_eq_true, decide_eq_true_eq, setKey_keys_present hk]
  exact ⟨jwfFields_setKey hwf.1 hsk hv, hwf.2⟩

theorem store_lookup_set_backend (st : Store) (k : Str) (v : Str) :
    store_lookup (store_set_backend st k v) k = some v := by
  induction st with
  | nil => simp [store_set_backend, store_lookup]
  | cons kv rest ih =>
    by_cases hk : kv.1 = k
    · rw [store_set_backend]
      rw [if_pos hk, store_lookup, if_pos hk]
    · rw [store_set_backend]
      rw [if_neg hk, store_lookup, if_neg hk, ih]

theorem parseVal_quote (f : Nat) {s cs : Str} (h : skipWs s = '"' :: cs) :
    parseVal (f + 1) s =
      (match parseStrBody cs with
       | none => none
       | some (str, r) => some (.jstr str, r)) := by
  simp only [parseVal, h]
  simp

theorem parseVal_lbrace (f : Nat) {s cs : Str} (h : skipWs s = lbrace :: cs) :
    parseVal (f + 1) s =
      (match skipWs cs with
       | d :: ds => if d = rbrace then some (.jobj [], ds) else parseMembers f (d :: ds) []
       | [] => none) := by
  simp only [parseVal, h]
  simp [lbrace]

theorem parseVal_lbrack (f : Nat) {s cs : Str} (h : skipWs s = '[' :: cs) :
    parseVal (f + 1) s =
      (match skipWs cs with
       | d :: ds => if d = ']' then some (.jarr [], ds) else parseElems f (d :: ds) []
       | [] => none) := by
  simp only [parseVal, h]
  simp [lbrace]

theorem parseVal_t (f : Nat) {s cs : Str} (h : skipWs s = 't' :: cs) :
    parseVal (f + 1) s =
      (match stripLit (("rue").data) cs with
       | some r => some (.jbool true, r)
       | none => none) := by
  simp only [parseVal, h]
  simp [lbrace]

theorem parseVal_f (f : Nat) {s cs : Str} (h : skipWs s = 'f' :: cs) :
    parseVal (f + 1) s =
      (match stripLit (("alse").data) cs with
       | some r => some (.jbool false, r)
       | none => none) := by
  simp only [parseVal, h]
  simp [lbrace]

theorem parseVal_n (f : Nat) {s cs : Str} (h : skipWs s = 'n' :: cs) :
    parseVal (f + 1) s =
      (match stripLit (("ull").data) cs with
       | some r => some (.jnull, r)
       | none => none) := by
  simp only [parseVal, h]
  simp [lbrace]

theorem parseVal_digit (f : Nat) {s cs : Str} {c : Char}
    (hc : (decide (c = '-') || isDigitChar c) = true)
    (hq : ¬(c = '"')) (hlb : ¬(c = lbrace)) (hlk : ¬(c = '[')) (ht : ¬(c = 't'))
    (hf : ¬(c = 'f')) (hn : ¬(c = 'n'))
    (h : skipWs s = c :: cs) :
    parseVal (f + 1) s =
      (match parseNum (c :: cs) with
       | some (n, r) => some (.jnum n, r)
       | none => none) := by
  simp only [parseVal, h]
  rw [if_neg hq, if_neg hlb, if_neg hlk, if_neg ht, if_neg hf, if_neg hn, if_pos hc]

/-- Round-trip property of `parseVal` at fuel `f`. -/
def RTV (f : Nat) : Prop :=
  ∀ (x : JValue) (ind : Option Nat) (lvl : Nat) (s rest : Str),
    jwf x = true → headNotDigit rest = true → jfuel x ≤ f →
    skipWs s = dumpVal ind lvl x ++ rest →
    parseVal f s = some (x, rest)

/-- Round-trip property of `parseMembers` at fuel `f`. -/
def RTM (f : Nat) : Prop :=
  ∀ (k : Str) (v : JValue) (fs : List (Str × JValue)) (ind : Option Nat) (lvl m : Nat)
    (acc : List (Str × JValue)) (rest : Str),
    jwfFields ((k, v) :: fs) = true → (((k, v) :: fs).map Prod.fst).Nodup →
    (∀ p ∈ acc, p.1 ∉ ((k, v) :: fs).map Prod.fst) →
    jfuelFields ((k, v) :: fs) ≤ f →
    parseMembers f (dumpField ind lvl (k, v) ++
      (dumpFields ind lvl fs ++ (openSep ind m ++ rbrace :: rest))) acc =
      some (.jobj (acc ++ (k, v) :: fs), rest)

/-- Round-trip property of `parseElems` at fuel `f`. -/
def RTE (f : Nat) : Prop :=
  ∀ (x : JValue) (xs : List JValue) (ind : Option Nat) (lvl m : Nat)
    (acc : List JValue) (rest : Str),
    jwfList (x :: xs) = true →
    jfuelList (x :: xs) ≤ f →
    parseElems f (dumpVal ind lvl x ++
      (dumpElems ind lvl xs ++ (openSep ind m ++ ']' :: rest))) acc =
      some (.jarr (acc ++ x :: xs), rest)

theorem rtv_zero : RTV 0 := by
  intro x ind lvl s rest _ _ hf _
  exact absurd (le_trans (jfuel_pos x) hf) (by omega)

theorem rtm_zero : RTM 0 := by
  intro k v fs ind lvl m acc rest _ _ _ hf
  rw [jfuelFields] at hf
  omega

theorem rte_zero : RTE 0 := by
  intro x xs ind lvl m acc rest _ hf
  rw [jfuelList] at hf
  omega

theorem rtv_step (f : Nat) (ihM : RTM f) (ihE : RTE f) : RTV (f + 1) := by
  intro x ind lvl s rest hwf hrd hfl hs
  cases x with
  | jnull =>
    have hs2 : skipWs s = 'n' :: (("ull").data ++ rest) := by rw [hs]; rfl
    rw [parseVal_n f hs2, stripLit_self]
  | jbool b =>
    cases b
    · have hs2 : skipWs s = 'f' :: (("alse").data ++ rest) := by rw [hs]; rfl
      rw [parseVal_f f hs2, stripLit_self]
    · have hs2 : skipWs s = 't' :: (("rue").data ++ rest) := by rw [hs]; rfl
      rw [parseVal_t f hs2, stripLit_self]
  | jnum n =>
    obtain ⟨c, ds, hd, hor, hq, hlb, hlk, ht2, hf2, hn2⟩ :
        ∃ c ds, dumpInt n = c :: ds ∧ (decide (c = '-') || isDigitChar c) = true ∧
          ¬(c = '"') ∧ ¬(c = lbrace) ∧ ¬(c = '[') ∧ ¬(c = 't') ∧ ¬(c = 'f') ∧ ¬(c = 'n') := by
      by_cases hn : n < 0
      · exact ⟨'-', natDigits n.natAbs, by rw [dumpInt, if_pos hn], by decide, by decide,
          by decide, by decide, by decide, by decide, by decide⟩
      · have hnd := natDigitsF_spec (n.natAbs + 1) n.natAbs (by omega)
        obtain ⟨c, ds, hds⟩ : ∃ c ds, natDigits n.natAbs = c :: ds := by
          cases hh : natDigits n.natAbs with
          | nil => rw [natDigits] at hh; exact absurd hh hnd.1
          | cons c ds => exact ⟨c, ds, rfl⟩
        have hall : (c :: ds).all isDigitChar = true := by
          rw [← hds, natDigits]; exact hnd.2
        simp only [List.all_cons, Bool.and_eq_true] at hall
        have hdf := digit_facts hall.1
        exact ⟨c, ds, by rw [dumpInt, if_neg hn]; exact hds, by rw [hall.1]; simp,
          hdf.1, hdf.2.1, hdf.2.2.1, hdf.2.2.2.1, hdf.2.2.2.2.1, hdf.2.2.2.2.2.1⟩
    have hs2 : skipWs s = c :: (ds ++ rest) := by
      rw [hs]
      simp only [dumpVal]
      rw [hd, List.cons_append]
    rw [parseVal_digit f hor hq hlb hlk ht2 hf2 hn2 hs2, ← List.cons_append, ← hd,
      parseNum_dumpInt n hrd]
  | jstr str =>
    rw [jwf] at hwf
    have hs2 : skipWs s = '"' :: (escStrBody str ++ rest) := by
      rw [hs]
      simp only [dumpVal]
      rw [List.cons_append]
    rw [parseVal_quote f hs2, parseStrBody_esc hwf rest]
  | jarr xs =>
    cases xs with
    | nil =>
      have hs2 : skipWs s = '[' :: (']' :: rest) := by rw [hs]; rfl
      rw [parseVal_lbrack f hs2, skipWs_not_ws (by decide)]
      simp
    | cons x1 xs1 =>
      rw [jwf] at hwf
      rw [jfuel] at hfl
      have hs2 : skipWs s = '[' :: (openSep ind (lvl + 1) ++ (dumpVal ind (lvl + 1) x1 ++
          (dumpElems ind (lvl + 1) xs1 ++ (openSep ind lvl ++ (']' :: rest))))) := by
        rw [hs]
        simp only [dumpVal]
        simp [List.append_assoc]
      rw [parseVal_lbrack f hs2]
      rw [skipWs_openSep, skipWs_dump]
      obtain ⟨c, cs1, hd, hws, hne1, hne2, hne3⟩ := dump_head x1 ind (lvl + 1)
      rw [show dumpVal ind (lvl + 1) x1 ++ (dumpElems ind (lvl + 1) xs1 ++
          (openSep ind lvl ++ (']' :: rest))) = c :: (cs1 ++ (dumpElems ind (lvl + 1) xs1 ++
          (openSep ind lvl ++ (']' :: rest)))) from by rw [hd]; rfl]
      simp only [hne1, if_false]
      rw [← List.cons_append, ← hd]
      exact ihE x1 xs1 ind (lvl + 1) lvl [] rest hwf (by omega)
  | jobj fs =>
    cases fs with
    | nil =>
      have hs2 : skipWs s = lbrace :: (rbrace :: rest) := by rw [hs]; rfl
      rw [parseVal_lbrace f hs2, skipWs_not_ws (by decide)]
      simp
    | cons kv fs1 =>
      obtain ⟨k, v⟩ := kv
      rw [jwf, Bool.and_eq_true, decide_eq_true_eq] at hwf
      rw [jfuel] at hfl
      have hs2 : skipWs s = lbrace :: (openSep ind (lvl + 1) ++ (dumpField ind (lvl + 1) (k, v) ++
          (dumpFields ind (lvl + 1) fs1 ++ (openSep ind lvl ++ (rbrace :: rest))))) := by
        rw [hs]
        simp only [dumpVal]
        simp [List.append_assoc]
      rw [parseVal_lbrace f hs2]
      rw [skipWs_openSep]
      rw [show dumpField ind (lvl + 1) (k, v) ++ (dumpFields ind (lvl + 1) fs1 ++
          (openSep ind lvl ++ (rbrace :: rest))) = '"' :: ((escStrBody k ++ keySep ++
          dumpVal ind (lvl + 1) v) ++ (dumpFields ind (lvl + 1) fs1 ++
          (openSep ind lvl ++ (rbrace :: rest)))) from by rw [dumpField]; rfl]
      rw [skipWs_not_ws (by decide)]
      simp only [show ¬(('"' : Char) = rbrace) by decide, if_false]
      rw [show ('"' : Char) :: ((escStrBody k ++ keySep ++ dumpVal ind (lvl + 1) v) ++
          (dumpFields ind (lvl + 1) fs1 ++ (openSep ind lvl ++ (rbrace :: rest)))) =
          dumpField ind (lvl + 1) (k, v) ++ (dumpFields ind (lvl + 1) fs1 ++
          (openSep ind lvl ++ (rbrace :: rest))) from by rw [dumpField]; rfl]
      have hres := ihM k v fs1 ind (lvl + 1) lvl [] rest hwf.1 hwf.2
        (fun p hp => absurd hp (List.not_mem_nil p)) (by omega)
      rw [hres]
      rfl

theorem rte_step (f : Nat) (ihV : RTV f) (ihE : RTE f) : RTE (f + 1) := by
  intro x xs ind lvl m acc rest hwf hfl
  rw [jwfList, Bool.and_eq_true] at hwf
  rw [jfuelList] at hfl
  have hnd1 : headNotDigit (dumpElems ind lvl xs ++ (openSep ind m ++ ']' :: rest)) = true := by
    cases xs with
    | nil =>
      rw [dumpElems, List.nil_append]
      exact headNotDigit_openSep_cons ind m (by decide) rest
    | cons y ys =>
      rw [dumpElems, List.append_assoc, List.append_assoc]
      exact headNotDigit_itemSep ind lvl _
  have hv := ihV x ind lvl
    (dumpVal ind lvl x ++ (dumpElems ind lvl xs ++ (openSep ind m ++ ']' :: rest)))
    (dumpElems ind lvl xs ++ (openSep ind m ++ ']' :: rest))
    hwf.1 hnd1 (by omega) (skipWs_dump x ind lvl _)
  simp only [parseElems, hv]
  cases xs with
  | nil =>
    have hr : skipWs (dumpElems ind lvl [] ++ (openSep ind m ++ ']' :: rest)) = ']' :: rest := by
      rw [dumpElems, List.nil_append, skipWs_openSep]
      exact skipWs_not_ws (by decide) rest
    simp only [hr]
    simp
  | cons y ys =>
    obtain ⟨t, ht, htws⟩ := itemSep_shape ind lvl
    have hr : skipWs (dumpElems ind lvl (y :: ys) ++ (openSep ind m ++ ']' :: rest)) =
        ',' :: (t ++ (dumpVal ind lvl y ++ (dumpElems ind lvl ys ++ (openSep ind m ++ ']' :: rest)))) := by
      rw [dumpElems, ht]
      simp only [List.cons_append, List.append_assoc]
      exact skipWs_not_ws (by decide) _
    simp only [hr]
    have hr2 : skipWs (t ++ (dumpVal ind lvl y ++ (dumpElems ind lvl ys ++ (openSep ind m ++ ']' :: rest)))) =
        dumpVal ind lvl y ++ (dumpElems ind lvl ys ++ (openSep ind m ++ ']' :: rest)) := by
      rw [skipWs_append_ws htws, skipWs_dump]
    have hrec := ihE y ys ind lvl m (acc ++ [x]) rest hwf.2 (by omega)
    simp only [hr2, hrec]
    simp [List.append_assoc]

theorem rtm_step (f : Nat) (ihV : RTV f) (ihM : RTM f) : RTM (f + 1) := by
  intro k v fs ind lvl m acc rest hwf hnd hdisj hfl
  rw [jwfFields, Bool.and_eq_true, Bool.and_eq_true] at hwf
  rw [jfuelFields] at hfl
  replace hfl : 1 + jfuel v + jfuelFields fs ≤ f + 1 := hfl
  simp only [List.map_cons] at hnd hdisj
  rw [show dumpField ind lvl (k, v) ++ (dumpFields ind lvl fs ++ (openSep ind m ++ rbrace :: rest)) =
      '"' :: (escStrBody k ++ (keySep ++ (dumpVal ind lvl v ++
        (dumpFields ind lvl fs ++ (openSep ind m ++ rbrace :: rest))))) from by
    rw [dumpField]
    simp [List.append_assoc]]
  simp only [parseMembers]
  rw [parseStrBody_esc hwf.1.1]
  have hks : skipWs (keySep ++ (dumpVal ind lvl v ++
      (dumpFields ind lvl fs ++ (openSep ind m ++ rbrace :: rest)))) =
      ':' :: (' ' :: (dumpVal ind lvl v ++ (dumpFields ind lvl fs ++ (openSep ind m ++ rbrace :: rest)))) := by
    rw [keySep, List.cons_append, List.cons_append]
    exact skipWs_not_ws (by decide) _
  simp only [hks]
  have hnd3 : headNotDigit (dumpFields ind lvl fs ++ (openSep ind m ++ rbrace :: rest)) = true := by
    cases fs with
    | nil =>
      rw [dumpFields, List.nil_append]
      exact headNotDigit_openSep_cons ind m (by decide) rest
    | cons kv2 fs2 =>
      rw [dumpFields, List.append_assoc, List.append_assoc]
      exact headNotDigit_itemSep ind lvl _
  have hv := ihV v ind lvl
    (' ' :: (dumpVal ind lvl v ++ (dumpFields ind lvl fs ++ (openSep ind m ++ rbrace :: rest))))
    (dumpFields ind lvl fs ++ (openSep ind m ++ rbrace :: rest))
    hwf.1.2 hnd3 (by omega)
    (by
      rw [show (' ' :: (dumpVal ind lvl v ++ (dumpFields ind lvl fs ++ (openSep ind m ++ rbrace :: rest)))) =
        [' '] ++ (dumpVal ind lvl v ++ (dumpFields ind lvl fs ++ (openSep ind m ++ rbrace :: rest))) from rfl]
      rw [skipWs_append_ws (by decide), skipWs_dump])
  simp only [hv]
  have hsk : setKey acc k v = acc ++ [(k, v)] := by
    refine setKey_absent v (fun p hp he => hdisj p hp ?_)
    rw [he]
    exact List.mem_cons_self k _
  cases fs with
  | nil =>
    have hr : skipWs (dumpFields ind lvl [] ++ (openSep ind m ++ rbrace :: rest)) = rbrace :: rest := by
      rw [dumpFields, List.nil_append, skipWs_openSep]
      exact skipWs_not_ws (by decide) rest
    simp only [hr]
    simp [lbrace, rbrace, hsk]
  | cons kv2 fs2 =>
    obtain ⟨k2, v2⟩ := kv2
    obtain ⟨t, ht, htws⟩ := itemSep_shape ind lvl
    have hr : skipWs (dumpFields ind lvl ((k2, v2) :: fs2) ++ (openSep ind m ++ rbrace :: rest)) =
        ',' :: (t ++ (dumpField ind lvl (k2, v2) ++ (dumpFields ind lvl fs2 ++ (openSep ind m ++ rbrace :: rest)))) := by
      rw [dumpFields, ht]
      simp only [List.cons_append, List.append_assoc]
      exact skipWs_not_ws (by decide) _
    simp only [hr]
    have hr2 : skipWs (t ++ (dumpField ind lvl (k2, v2) ++ (dumpFields ind lvl fs2 ++ (openSep ind m ++ rbrace :: rest)))) =
        dumpField ind lvl (k2, v2) ++ (dumpFields ind lvl fs2 ++ (openSep ind m ++ rbrace :: rest)) := by
      rw [skipWs_append_ws htws]
      rw [show dumpField ind lvl (k2, v2) ++ (dumpFields ind lvl fs2 ++ (openSep ind m ++ rbrace :: rest)) =
        '"' :: ((escStrBody k2 ++ keySep ++ dumpVal ind lvl v2) ++ (dumpFields ind lvl fs2 ++ (openSep ind m ++ rbrace :: rest))) from by
        rw [dumpField]; rfl]
      exact skipWs_not_ws (by decide) _
    have hnd2 : (((k2, v2) :: fs2).map Prod.fst).Nodup := (List.nodup_cons.mp hnd).2
    have hknotin : ¬(k ∈ ((k2, v2) :: fs2).map Prod.fst) := (List.nodup_cons.mp hnd).1
    have hdisj2 : ∀ p ∈ setKey acc k v, p.1 ∉ ((k2, v2) :: fs2).map Prod.fst := by
      rw [hsk]
      intro p hp
      rcases List.mem_append.mp hp with hpa | hpk
      · exact fun hin => hdisj p hpa (List.mem_cons_of_mem k hin)
      · rw [List.mem_singleton.mp hpk]
        exact hknotin
    have hrec := ihM k2 v2 fs2 ind lvl m (setKey acc k v) rest hwf.2 hnd2 hdisj2 (by omega)
    simp only [hr2, hrec]
    simp [hsk, List.append_assoc]

theorem rt_all : ∀ f, RTV f ∧ RTM f ∧ RTE f := by
  intro f
  induction f with
  | zero => exact ⟨rtv_zero, rtm_zero, rte_zero⟩
  | succ f ih => exact ⟨rtv_step f ih.2.1 ih.2.2, rtm_step f ih.1 ih.2.1, rte_step f ih.1 ih.2.2⟩

theorem itemSep_length (ind : Option Nat) (lvl : Nat) : 2 ≤ (itemSep ind lvl).length := by
  cases ind <;> simp [itemSep]

theorem dumpInt_length (n : Int) : 1 ≤ (dumpInt n).length := by
  have hnd := natDigitsF_spec (n.natAbs + 1) n.natAbs (by omega)
  have hlen : 1 ≤ (natDigits n.natAbs).length := by
    rw [natDigits]
    cases hh : natDigitsF (n.natAbs + 1) n.natAbs with
    | nil => exact absurd hh hnd.1
    | cons c ds => simp
  by_cases hn : n < 0
  · rw [dumpInt, if_pos hn]
    simp
  · rw [dumpInt, if_neg hn]
    exact hlen

theorem escStrBody_length (s : Str) : 1 ≤ (escStrBody s).length := by
  induction s with
  | nil => simp [escStrBody]
  | cons c cs ih => rw [escStrBody]; simp; omega

mutual

theorem jfuel_le_length (x : JValue) (ind : Option Nat) (lvl : Nat) :
    jfuel x ≤ (dumpVal ind lvl x).length := by
  cases x with
  | jnull => simp [jfuel, dumpVal]
  | jbool b => cases b <;> simp [jfuel, dumpVal]
  | jnum n => rw [jfuel, dumpVal]; exact dumpInt_length n
  | jstr s => simp [jfuel, dumpVal]
  | jarr xs =>
    cases xs with
    | nil => simp [jfuel, jfuelList, dumpVal]
    | cons y ys =>
      have h1 := jfuel_le_length y ind (lvl + 1)
      have h2 := jfuelList_le_length ys ind (lvl + 1)
      rw [jfuel, jfuelList, dumpVal]
      simp only [List.length_cons, List.length_append]
      omega
  | jobj fs =>
    cases fs with
    | nil => simp [jfuel, jfuelFields, dumpVal]
    | cons kv fs1 =>
      have h1 := jfuel_le_length kv.2 ind (lvl + 1)
      have h2 := jfuelFields_le_length fs1 ind (lvl + 1)
      have h3 := escStrBody_length kv.1
      rw [jfuel, jfuelFields, dumpVal, dumpField]
      simp only [List.length_cons, List.length_append, keySep]
      omega

theorem jfuelList_le_length (xs : List JValue) (ind : Option Nat) (lvl : Nat) :
    jfuelList xs ≤ (dumpElems ind lvl xs).length := by
  cases xs with
  | nil => simp [jfuelList, dumpElems]
  | cons y ys =>
    have h1 := jfuel_le_length y ind lvl
    have h2 := jfuelList_le_length ys ind lvl
    have h3 := itemSep_length ind lvl
    rw [jfuelList, dumpElems]
    simp only [List.length_append]
    omega

theorem jfuelFields_le_length (fs : List (Str × JValue)) (ind : Option Nat) (lvl : Nat) :
    jfuelFields fs ≤ (dumpFields ind lvl fs).length := by
  cases fs with
  | nil => simp [jfuelFields, dumpFields]
  | cons kv fs1 =>
    have h1 := jfuel_le_length kv.2 ind lvl
    have h2 := jfuelFields_le_length fs1 ind lvl
    have h3 := itemSep_length ind lvl
    have h4 := escStrBody_length kv.1
    rw [jfuelFields, dumpFields, dumpField]
    simp only [List.length_append, List.length_cons, keySep]
    omega

end

theorem jloads_dump {x : JValue} (hwf : jwf x = true) (ind : Option Nat) :
    jloads (dumpVal ind 0 x) = some x := by
  have hfb := jfuel_le_length x ind 0
  have hskip : skipWs (dumpVal ind 0 x) = dumpVal ind 0 x ++ [] := by
    rw [List.append_nil]
    have h2 := skipWs_dump x ind 0 []
    rwa [List.append_nil] at h2
  have hrt := (rt_all ((dumpVal ind 0 x).length + 1)).1 x ind 0 (dumpVal ind 0 x) []
    hwf rfl (by omega) hskip
  rw [jloads, hrt]
  rfl

theorem adapter_setitem_root (st : Store) (v : Str) (fields : List (Str × JValue))
    (hload : jloads v = some (.jobj fields)) :
    adapter_setitem st ((".zgroup").data) v =
      async_set st (("meta/root.group").data)
        (.pybytes (jdumps4 (.jobj (setKey fields (("zarr_format").data)
          (.jstr ("https://purl.org/zarr/spec/protocol/core/3.0").data))))) := by
  simp [adapter_setitem, hload,
    show convert_2_to_3_keys ((".zgroup").data) = .ok (("meta/root.group").data) from rfl,
    Except.instMonad, Except.bind]

/-- Claim C5 (amended): writing a byte payload at `.zgroup` through the
adapter and reading it back is byte-identical whenever the payload is
the canonical `json.dumps(..., indent=4)` serialization of an object
whose `zarr_format` field is the number 2 (with distinct keys and
printable-ASCII strings); the write replaces `zarr_format` by the v3
protocol URI before storing and the read replaces it by 2 and re-dumps
with `indent=4`, so payloads in any other formatting come back
reformatted. -/
theorem c5_root_group_roundtrip (st : Store) (v : Str) (fields : List (Str × JValue))
    (hwf : jwf (.jobj fields) = true)
    (hzf : getKey fields (("zarr_format").data) = some (.jnum 2))
    (hv : v = jdumps4 (.jobj fields)) :
    (adapter_setitem st ((".zgroup").data) v).bind
      (fun st2 => adapter_getitem st2 ((".zgroup").data)) = .ok v := by
  have hload : jloads v = some (.jobj fields) := by
    rw [hv, jdumps4]
    exact jloads_dump hwf (some 4)
  have hwf1 : jwf (.jobj (setKey fields (("zarr_format").data)
      (.jstr ("https://purl.org/zarr/spec/protocol/core/3.0").data))) = true :=
    jwf_setKey hwf rfl rfl hzf
  have hset : adapter_setitem st ((".zgroup").data) v =
      .ok (store_set_backend st (("meta/root.group").data)
        (jdumps4 (.jobj (setKey fields (("zarr_format").data)
          (.jstr ("https://purl.org/zarr/spec/protocol/core/3.0").data))))) := by
    rw [adapter_setitem_root st v fields hload]
    simp [async_set, isBytes, bytesOf,
      show (("/.group").data.isSuffixOf (("meta/root.group").data)) = false from rfl,
      show valid_path (("meta/root.group").data) = .ok true from rfl]
  rw [hset]
  have hget : async_get (store_set_backend st (("meta/root.group").data)
      (jdumps4 (.jobj (setKey fields (("zarr_format").data)
        (.jstr ("https://purl.org/zarr/spec/protocol/core/3.0").data)))))
      (("meta/root.group").data) =
      .ok (jdumps4 (.jobj (setKey fields (("zarr_format").data)
        (.jstr ("https://purl.org/zarr/spec/protocol/core/3.0").data)))) := by
    simp [async_get, store_lookup_set_backend,
      show valid_path (("meta/root.group").data) = .ok true from rfl,
      show (("/.group").data.isSuffixOf (("meta/root.group").data)) = false from rfl]
  have hload2 : jloads (jdumps4 (.jobj (setKey fields (("zarr_format").data)
      (.jstr ("https://purl.org/zarr/spec/protocol/core/3.0").data)))) =
      some (.jobj (setKey fields (("zarr_format").data)
        (.jstr ("https://purl.org/zarr/spec/protocol/core/3.0").data))) := by
    rw [jdumps4]
    exact jloads_dump hwf1 (some 4)
  simp [adapter_getitem, hget, hload2,
    show convert_2_to_3_keys ((".zgroup").data) = .ok (("meta/root.group").data) from rfl,
    Except.instMonad, Except.bind, setKey_setKey, getKey_setKey_self hzf, ← hv]

/-- Claim C5 counterexample: writing the compact payload
`{"zarr_format": 2}` at `.zgroup` and reading it back yields the
indent-4 reformatted bytes, not the original payload. -/
theorem c5_counterexample :
    (adapter_setitem [] ((".zgroup").data) (("\x7b\"zarr_format\": 2\x7d").data)).bind
      (fun st2 => adapter_getitem st2 ((".zgroup").data)) =
      .ok (("\x7b\n    \"zarr_format\": 2\n\x7d").data) ∧
    ("\x7b\n    \"zarr_format\": 2\n\x7d").data ≠ ("\x7b\"zarr_format\": 2\x7d").data :=
  ⟨rfl, by decide⟩

/-- Witness for C5 at the canonical root-group payload with
`zarr_format` 2 (the byte string of the repository's own test). -/
theorem c5_witness :
    (adapter_setitem [] ((".zgroup").data)
        (jdumps4 (.jobj [((("zarr_format").data), .jnum 2)]))).bind
      (fun st2 => adapter_getitem st2 ((".zgroup").data)) =
      .ok (jdumps4 (.jobj [((("zarr_format").data), .jnum 2)])) :=
  c5_root_group_roundtrip [] _ [((("zarr_format").data), .jnum 2)] rfl rfl rfl


end Zarr
